import Mathlib

/-!
# Verification of the metaflac block codec and tag container

Shallow embedding of the `metaflac` Rust crate (src/block.rs, src/tag.rs,
src/error.rs): FLAC metadata block parsers/serializers and the tag
container's mutation and write logic.

Modelling conventions, used uniformly below:

* Bytes are `Nat` values; a byte buffer (`Vec<u8>`, `&[u8]`) is a
  `List Nat`.  Every value the embedding stores into a buffer is reduced
  `% 256`, mirroring the `u8` machine type.
* Rust strings (`String`) are modelled as their UTF-8 byte lists; the
  `String::from_utf8` check is the executable validator `utf8Valid`.
* Machine integers are `Nat` with explicit `% 2^w` at the points where the
  source truncates (casts such as `as u8`, `as u32`, `to_be_bytes()[1..]`).
  Bit operations of the source on disjoint bit ranges are written
  arithmetically: `x | y` of disjoint fields is `x + y`, `x & (2^k - 1)` is
  `x % 2^k`, `x << k` is `x * 2^k`, `x >> k` is `x / 2^k`.
  `num_channels - 1` / `bits_per_sample - 1` on `u8` wrap on underflow
  (release-profile two's-complement wrapping), embedded as `(n + 255) % 256`.
* A Rust panic (out-of-bounds slice/index, failed `assert!`) is `none`;
  a returned `Err` is `Except.error`; fallible functions therefore live in
  `Option` or `Option (Except Err _)`.
* A reader (`impl Read`) is the list of bytes not yet consumed; a read
  returns the value and the remaining list.  `read_exact`/slicing of more
  bytes than remain is an I/O error or a panic exactly as in the source.
-/

/-- The error taxonomy of src/error.rs (`ErrorKind`); the wrapped payloads
(the `io::Error`, the invalid bytes, the description) carry no information
used by the logic. -/
inductive Err where
  | io
  | stringDecoding
  | invalidInput
deriving DecidableEq, Repr

deriving instance DecidableEq for Except

/-- Big-endian encoding of `n` into `k` bytes (`to_be_bytes`, and the
truncating `to_be_bytes()[1..]` forms, which keep the low `8*k` bits). -/
def beBytes : Nat → Nat → List Nat
  | 0, _ => []
  | k + 1, n => beBytes k (n / 256) ++ [n % 256]

/-- Big-endian value of a byte list (`from_be_bytes`, `read_uint::<BE>`). -/
def beVal (l : List Nat) : Nat := l.foldl (fun a b => a * 256 + b) 0

/-- Little-endian encoding of `n` into `k` bytes (`to_le_bytes`). -/
def leBytes : Nat → Nat → List Nat
  | 0, _ => []
  | k + 1, n => n % 256 :: leBytes k (n / 256)

/-- Little-endian value of a byte list (`from_le_bytes`). -/
def leVal : List Nat → Nat
  | [] => 0
  | b :: r => b + 256 * leVal r

/-- `&bytes[i..i+n]` followed by `i += n`, in consumed/remaining style:
take `n` bytes off the front, panicking (`none`) when fewer remain. -/
def takeN (r : List Nat) (n : Nat) : Option (List Nat × List Nat) :=
  if n ≤ r.length then some (r.take n, r.drop n) else none

@[simp] theorem beBytes_length (k n : Nat) : (beBytes k n).length = k := by
  induction k generalizing n with
  | zero => rfl
  | succ k ih => simp [beBytes, ih]

@[simp] theorem leBytes_length (k n : Nat) : (leBytes k n).length = k := by
  induction k generalizing n with
  | zero => rfl
  | succ k ih => simp [leBytes, ih]

theorem beVal_foldl (l : List Nat) (acc : Nat) :
    List.foldl (fun a b => a * 256 + b) acc l = acc * 256 ^ l.length + beVal l := by
  induction l generalizing acc with
  | nil => simp [beVal]
  | cons x r ih =>
    simp only [List.foldl_cons, List.length_cons]
    rw [ih]
    have hx : beVal (x :: r) = x * 256 ^ r.length + beVal r := by
      show List.foldl (fun a b => a * 256 + b) (0 * 256 + x) r = _
      rw [ih]
      ring
    rw [hx]
    ring

theorem beVal_append (a b : List Nat) :
    beVal (a ++ b) = beVal a * 256 ^ b.length + beVal b := by
  show List.foldl _ 0 (a ++ b) = _
  rw [List.foldl_append, beVal_foldl]
  rfl

theorem beVal_beBytes (k n : Nat) : beVal (beBytes k n) = n % 256 ^ k := by
  induction k generalizing n with
  | zero => simp [beBytes, beVal, Nat.mod_one]
  | succ k ih =>
    rw [beBytes, beVal_append, ih]
    have hmm : n % 256 ^ (k + 1) = n % 256 + 256 * (n / 256 % 256 ^ k) := by
      rw [pow_succ']
      exact Nat.mod_mul
    have hsingle : beVal [n % 256] = n % 256 := by simp [beVal]
    rw [hsingle]
    simp only [List.length_singleton, pow_one]
    omega

theorem leVal_leBytes (k n : Nat) : leVal (leBytes k n) = n % 256 ^ k := by
  induction k generalizing n with
  | zero => simp [leBytes, leVal, Nat.mod_one]
  | succ k ih =>
    rw [leBytes, leVal, ih]
    have hmm : n % 256 ^ (k + 1) = n % 256 + 256 * (n / 256 % 256 ^ k) := by
      rw [pow_succ']
      exact Nat.mod_mul
    omega

theorem takeN_append {a : List Nat} {n : Nat} (b : List Nat)
    (h : a.length = n) : takeN (a ++ b) n = some (a, b) := by
  subst h
  simp [takeN, List.take_left, List.drop_left]

theorem takeN_exact {a : List Nat} {n : Nat} (h : a.length = n) :
    takeN a n = some (a, []) := by
  have := takeN_append (a := a) [] h
  simpa using this

theorem takeN_short {a : List Nat} {n : Nat} (h : a.length < n) :
    takeN a n = none := by
  simp [takeN]; omega

/-- One step of the UTF-8 acceptor (RFC 3629): state 0 is start/accept,
states 1-3 await that many generic continuation bytes (`0x80..0xBF`),
states 4-7 are the restricted first-continuation states after a leading
`0xE0`/`0xED`/`0xF0`/`0xF4` byte, and state 8 is the absorbing reject
state.  This is the check `String::from_utf8` performs. -/
def utf8Step (s b : Nat) : Nat :=
  match s with
  | 0 =>
    if b ≤ 127 then 0
    else if 194 ≤ b && b ≤ 223 then 1
    else if b = 224 then 4
    else if (225 ≤ b && b ≤ 236) || b = 238 || b = 239 then 2
    else if b = 237 then 5
    else if b = 240 then 6
    else if 241 ≤ b && b ≤ 243 then 3
    else if b = 244 then 7
    else 8
  | 1 => if 128 ≤ b && b ≤ 191 then 0 else 8
  | 2 => if 128 ≤ b && b ≤ 191 then 1 else 8
  | 3 => if 128 ≤ b && b ≤ 191 then 2 else 8
  | 4 => if 160 ≤ b && b ≤ 191 then 1 else 8
  | 5 => if 128 ≤ b && b ≤ 159 then 1 else 8
  | 6 => if 144 ≤ b && b ≤ 191 then 2 else 8
  | 7 => if 128 ≤ b && b ≤ 143 then 2 else 8
  | _ => 8

/-- UTF-8 validity of a byte list: the acceptor ends at the accept state.
Models the validity check of `String::from_utf8`. -/
def utf8Valid (l : List Nat) : Bool := l.foldl utf8Step 0 == 0

/-- Valid UTF-8 is closed under concatenation: the acceptor is back at the
start state at the end of a valid prefix. -/
theorem utf8Valid_append (a b : List Nat) (ha : utf8Valid a = true)
    (hb : utf8Valid b = true) : utf8Valid (a ++ b) = true := by
  unfold utf8Valid at *
  rw [List.foldl_append]
  rw [show a.foldl utf8Step 0 = 0 from by simpa using ha]
  exact hb

/-- A leading ASCII byte leaves UTF-8 validity unchanged. -/
theorem utf8Valid_cons_ascii (x : Nat) (s : List Nat) (hx : x ≤ 127) :
    utf8Valid (x :: s) = utf8Valid s := by
  unfold utf8Valid
  rw [List.foldl_cons]
  rw [show utf8Step 0 x = 0 from by simp [utf8Step, hx]]

/-- `str.to_ascii_uppercase()`: byte-wise upper-casing of `a`-`z` only. -/
def upperAscii (l : List Nat) : List Nat :=
  l.map (fun b => if 97 ≤ b && b ≤ 122 then b - 32 else b)

/-- `comments.splitn(2, '=')` followed by indexing parts 0 and 1: the part
before the first `=` (byte `0x3D`) and everything after it.  `none` when no
`=` occurs — there `comments_split[1]` in the source is an out-of-bounds
index (a panic).  Since `=` is ASCII and UTF-8 continuation bytes are
`≥ 0x80`, the byte-level split agrees with the source's char-level split. -/
def splitEq (l : List Nat) : Option (List Nat × List Nat) :=
  if 61 ∈ l then some (l.takeWhile (fun b => b ≠ 61), (l.dropWhile (fun b => b ≠ 61)).drop 1)
  else none

theorem splitEq_of_no_eq {l : List Nat} (h : 61 ∉ l) : splitEq l = none := by
  simp [splitEq, h]

theorem takeWhile_ne61_append {k v : List Nat} (hk : 61 ∉ k) :
    (k ++ 61 :: v).takeWhile (fun b => b ≠ 61) = k := by
  induction k with
  | nil => simp
  | cons x xs ih =>
    simp only [List.mem_cons, not_or] at hk
    have hx : x ≠ 61 := fun hx => hk.1 hx.symm
    simp only [List.cons_append, List.takeWhile_cons]
    rw [if_pos (by simp [hx]), ih hk.2]

theorem dropWhile_ne61_append {k v : List Nat} (hk : 61 ∉ k) :
    (k ++ 61 :: v).dropWhile (fun b => b ≠ 61) = 61 :: v := by
  induction k with
  | nil => simp
  | cons x xs ih =>
    simp only [List.mem_cons, not_or] at hk
    have hx : x ≠ 61 := fun hx => hk.1 hx.symm
    simp only [List.cons_append, List.dropWhile_cons]
    rw [if_pos (by simp [hx]), ih hk.2]

theorem splitEq_append {k v : List Nat} (hk : 61 ∉ k) :
    splitEq (k ++ 61 :: v) = some (k, v) := by
  unfold splitEq
  rw [if_pos (by simp : 61 ∈ k ++ 61 :: v)]
  rw [takeWhile_ne61_append hk, dropWhile_ne61_append hk]
  simp

/-!
## StreamInfo (src/block.rs, `StreamInfo`)
-/

/-- A STREAMINFO block.  Field types in the source: `u16`, `u16`, `u32`,
`u32`, `u32`, `u8`, `u8`, `u64`, `Vec<u8>`. -/
structure StreamInfo where
  min_block_size : Nat
  max_block_size : Nat
  min_frame_size : Nat
  max_frame_size : Nat
  sample_rate : Nat
  num_channels : Nat
  bits_per_sample : Nat
  total_samples : Nat
  md5 : List Nat
deriving DecidableEq, Repr

/-- `StreamInfo::new()`: zero/empty values. -/
def StreamInfo.new : StreamInfo :=
  ⟨0, 0, 0, 0, 0, 0, 0, 0, []⟩

/-- Wrapping `u8` decrement: `n - 1` on a `u8` in release profile. -/
def wdec8 (n : Nat) : Nat := (n + 255) % 256

/-- `StreamInfo::to_bytes`.  The packed byte 12 holds the low 4 bits of the
sample rate, the 3-bit channel field `(num_channels - 1) & 0x7` and the top
bit of `bits_per_sample - 1`; byte 13 holds the low 4 bits of
`bits_per_sample - 1` and the top 4 bits of the 36-bit sample count. -/
def StreamInfo.to_bytes (s : StreamInfo) : List Nat :=
  beBytes 2 s.min_block_size ++ beBytes 2 s.max_block_size
    ++ beBytes 3 s.min_frame_size ++ beBytes 3 s.max_frame_size
    ++ beBytes 2 (s.sample_rate / 16)
    ++ [s.sample_rate % 16 * 16 + wdec8 s.num_channels % 8 * 2 + wdec8 s.bits_per_sample / 16 % 2]
    ++ [wdec8 s.bits_per_sample % 16 * 16 + s.total_samples / 2 ^ 32 % 16]
    ++ beBytes 4 s.total_samples
    ++ s.md5

/-- `StreamInfo::from_bytes`: fixed offsets 0,2,4,7,10,12,13,18 into the
payload; a payload shorter than the 34 bytes the layout needs panics at the
first out-of-bounds slice (`none`). -/
def StreamInfo.from_bytes (bytes : List Nat) : Option StreamInfo := do
  let (mbs, r1) ← takeN bytes 2
  let (xbs, r2) ← takeN r1 2
  let (mfs, r3) ← takeN r2 3
  let (xfs, r4) ← takeN r3 3
  let (sf, r5) ← takeN r4 2
  let (scb, r6) ← takeN r5 1
  let (bt, r7) ← takeN r6 5
  let (md5, _) ← takeN r7 16
  let sampleFirst := beVal sf
  let b := scb.headD 0
  let bpsTotal := beVal bt
  some
    { min_block_size := beVal mbs
      max_block_size := beVal xbs
      min_frame_size := beVal mfs
      max_frame_size := beVal xfs
      sample_rate := sampleFirst * 16 + b / 16
      num_channels := b / 2 % 8 + 1
      bits_per_sample := b % 2 * 16 + bpsTotal / 2 ^ 36 + 1
      total_samples := bpsTotal % 2 ^ 36
      md5 := md5 }

/-- The field ranges under which the StreamInfo round-trip holds: the stated
bit-widths, the FLAC channel range `[1,8]`, `bits_per_sample` at most 32 and
nonzero (the encoder stores `bits_per_sample - 1` in 5 bits), a 16-byte md5. -/
@[reducible] def StreamInfo.valid_relaxed (s : StreamInfo) : Prop :=
  s.min_block_size < 2 ^ 16 ∧ s.max_block_size < 2 ^ 16 ∧
    s.min_frame_size < 2 ^ 24 ∧ s.max_frame_size < 2 ^ 24 ∧
    s.sample_rate < 2 ^ 20 ∧
    1 ≤ s.num_channels ∧ s.num_channels ≤ 8 ∧
    1 ≤ s.bits_per_sample ∧ s.bits_per_sample ≤ 32 ∧
    s.total_samples < 2 ^ 36 ∧ s.md5.length = 16

/-- The claimed FLAC-stated ranges: as `valid_relaxed` but with
`bits_per_sample ∈ [4,32]`. -/
@[reducible] def StreamInfo.valid (s : StreamInfo) : Prop :=
  s.valid_relaxed ∧ 4 ≤ s.bits_per_sample

theorem StreamInfo.roundtrip_streaminfo (s : StreamInfo) (h : s.valid_relaxed) :
    StreamInfo.from_bytes s.to_bytes = some s := by
  obtain ⟨h1, h2, h3, h4, h5, h6, h7, h8, h9, h10, h11⟩ := h
  have hshape : s.to_bytes
      = beBytes 2 s.min_block_size ++ (beBytes 2 s.max_block_size
        ++ (beBytes 3 s.min_frame_size ++ (beBytes 3 s.max_frame_size
        ++ (beBytes 2 (s.sample_rate / 16)
        ++ ([s.sample_rate % 16 * 16 + wdec8 s.num_channels % 8 * 2
              + wdec8 s.bits_per_sample / 16 % 2]
        ++ (([wdec8 s.bits_per_sample % 16 * 16 + s.total_samples / 2 ^ 32 % 16]
              ++ beBytes 4 s.total_samples) ++ s.md5)))))) := by
    rw [StreamInfo.to_bytes]
    simp [List.append_assoc]
  rw [hshape, StreamInfo.from_bytes]
  rw [takeN_append _ (beBytes_length 2 _)]
  simp only [Option.bind_eq_bind, Option.some_bind]
  rw [takeN_append _ (beBytes_length 2 _)]
  simp only [Option.some_bind]
  rw [takeN_append _ (beBytes_length 3 _)]
  simp only [Option.some_bind]
  rw [takeN_append _ (beBytes_length 3 _)]
  simp only [Option.some_bind]
  rw [takeN_append _ (beBytes_length 2 _)]
  simp only [Option.some_bind]
  rw [takeN_append _ (by simp)]
  simp only [Option.some_bind]
  rw [takeN_append _ (by simp)]
  simp only [Option.some_bind]
  rw [takeN_exact h11]
  simp only [Option.some_bind, List.headD_cons]
  cases s with
  | mk mbs xbs mfs xfs sr nc bps ts md5 =>
  simp only at *
  rw [beVal_append]
  simp only [Option.some.injEq, StreamInfo.mk.injEq, beVal_beBytes, beBytes_length]
  have hb : beVal [wdec8 bps % 16 * 16 + ts / 2 ^ 32 % 16]
      = wdec8 bps % 16 * 16 + ts / 2 ^ 32 % 16 := by
    simp [beVal]
  rw [hb]
  unfold wdec8
  norm_num
  refine ⟨by omega, by omega, by omega, by omega, ?_, ?_, ?_, ?_⟩
  · omega
  · omega
  · omega
  · omega

/-!
## Application (src/block.rs, `Application`)
-/

/-- An APPLICATION block: 4-byte id, arbitrary trailing data. -/
structure Application where
  id : List Nat
  data : List Nat
deriving DecidableEq, Repr

/-- `Application::new()`. -/
def Application.new : Application := ⟨[], []⟩

/-- `Application::to_bytes`: id bytes then data bytes. -/
def Application.to_bytes (a : Application) : List Nat := a.id ++ a.data

/-- `Application::from_bytes`: `bytes[0..4]` is the id (panic when fewer
than 4 bytes), the rest is data. -/
def Application.from_bytes (bytes : List Nat) : Option Application := do
  let (id, rest) ← takeN bytes 4
  some { id := id, data := rest }

theorem Application.roundtrip_application (a : Application) (h : a.id.length = 4) :
    Application.from_bytes a.to_bytes = some a := by
  rw [Application.to_bytes, Application.from_bytes, takeN_append _ h]
  rfl

/-!
## SeekTable (src/block.rs, `SeekPoint`, `SeekTable`)
-/

/-- A seek point: `u64` sample number, `u64` offset, `u16` sample count. -/
structure SeekPoint where
  sample_number : Nat
  offset : Nat
  num_samples : Nat
deriving DecidableEq, Repr

/-- `SeekPoint::new()`. -/
def SeekPoint.new : SeekPoint := ⟨0, 0, 0⟩

/-- `SeekPoint::to_bytes`: 8 + 8 + 2 big-endian bytes. -/
def SeekPoint.to_bytes (p : SeekPoint) : List Nat :=
  beBytes 8 p.sample_number ++ beBytes 8 p.offset ++ beBytes 2 p.num_samples

/-- `SeekPoint::from_bytes`: fixed offsets 0, 8, 16 (18 bytes needed). -/
def SeekPoint.from_bytes (bytes : List Nat) : Option SeekPoint := do
  let (sn, r1) ← takeN bytes 8
  let (off, r2) ← takeN r1 8
  let (ns, _) ← takeN r2 2
  some { sample_number := beVal sn, offset := beVal off, num_samples := beVal ns }

/-- A SEEKTABLE block: a list of seek points. -/
structure SeekTable where
  seekpoints : List SeekPoint
deriving DecidableEq, Repr

/-- `SeekTable::new()`. -/
def SeekTable.new : SeekTable := ⟨[]⟩

/-- `SeekTable::to_bytes`: concatenation of the 18-byte point encodings. -/
def SeekTable.to_bytes (t : SeekTable) : List Nat :=
  (t.seekpoints.map SeekPoint.to_bytes).flatten

/-- The per-point parse loop of `SeekTable::from_bytes`: `n` 18-byte
records off the front. -/
def SeekTable.parsePoints : Nat → List Nat → Option (List SeekPoint)
  | 0, _ => some []
  | n + 1, r => do
    let (chunk, r1) ← takeN r 18
    let p ← SeekPoint.from_bytes chunk
    let ps ← SeekTable.parsePoints n r1
    some (p :: ps)

/-- `SeekTable::from_bytes`: `bytes.len() / 18` seek points, each from the
next 18-byte slice. -/
def SeekTable.from_bytes (bytes : List Nat) : Option SeekTable := do
  let ps ← SeekTable.parsePoints (bytes.length / 18) bytes
  some { seekpoints := ps }

/-- Field widths of a seek point: `u64`, `u64`, `u16`. -/
@[reducible] def SeekPoint.valid (p : SeekPoint) : Prop :=
  p.sample_number < 2 ^ 64 ∧ p.offset < 2 ^ 64 ∧ p.num_samples < 2 ^ 16

@[reducible] def SeekTable.valid (t : SeekTable) : Prop :=
  ∀ p ∈ t.seekpoints, p.valid

theorem SeekPoint.to_bytes_length (p : SeekPoint) : p.to_bytes.length = 18 := by
  simp [SeekPoint.to_bytes]

theorem SeekPoint.roundtrip_seekpoint (p : SeekPoint) (h : p.valid) :
    SeekPoint.from_bytes p.to_bytes = some p := by
  obtain ⟨sn, off, ns⟩ := p
  obtain ⟨h1, h2, h3⟩ := h
  dsimp only [SeekPoint.valid] at h1 h2 h3
  rw [SeekPoint.to_bytes, SeekPoint.from_bytes]
  simp only [List.append_assoc]
  rw [takeN_append _ (beBytes_length 8 _)]
  simp only [Option.bind_eq_bind, Option.some_bind]
  rw [takeN_append _ (beBytes_length 8 _)]
  simp only [Option.some_bind]
  rw [takeN_exact (beBytes_length 2 _)]
  simp only [Option.some_bind]
  simp only [Option.some.injEq, SeekPoint.mk.injEq, beVal_beBytes]
  norm_num
  exact ⟨by omega, by omega, by omega⟩

theorem SeekTable.parsePoints_roundtrip (ps : List SeekPoint)
    (h : ∀ p ∈ ps, p.valid) :
    SeekTable.parsePoints ps.length ((ps.map SeekPoint.to_bytes).flatten) = some ps := by
  induction ps with
  | nil => rfl
  | cons p rest ih =>
    simp only [List.length_cons, List.map_cons, List.flatten_cons]
    rw [SeekTable.parsePoints]
    rw [takeN_append _ (SeekPoint.to_bytes_length p)]
    simp only [Option.bind_eq_bind, Option.some_bind]
    rw [SeekPoint.roundtrip_seekpoint p (h p (by simp))]
    simp only [Option.some_bind]
    rw [ih (fun q hq => h q (by simp [hq]))]
    rfl

theorem SeekTable.roundtrip_seektable (t : SeekTable) (h : t.valid) :
    SeekTable.from_bytes t.to_bytes = some t := by
  rw [SeekTable.from_bytes, SeekTable.to_bytes]
  have hconst : ∀ l : List SeekPoint, (l.map fun _ => (18 : Nat)).sum = 18 * l.length := by
    intro l
    induction l with
    | nil => simp
    | cons a r ihr =>
      simp only [List.map_cons, List.sum_cons, ihr, List.length_cons]
      ring
  have hlen : ((t.seekpoints.map SeekPoint.to_bytes).flatten).length
      = 18 * t.seekpoints.length := by
    rw [List.length_flatten, List.map_map]
    have heq : t.seekpoints.map (List.length ∘ SeekPoint.to_bytes)
        = t.seekpoints.map (fun _ => 18) :=
      List.map_congr_left (fun p _ => SeekPoint.to_bytes_length p)
    rw [heq, hconst]
  rw [hlen]
  have hdiv : 18 * t.seekpoints.length / 18 = t.seekpoints.length := by omega
  rw [hdiv, SeekTable.parsePoints_roundtrip _ h]
  rfl

/-!
## Picture (src/block.rs, `PictureType`, `Picture`)
-/

/-- Picture types (`PictureType`), discriminants 0-20. -/
inductive PictureType where
  | other
  | icon
  | otherIcon
  | coverFront
  | coverBack
  | leaflet
  | media
  | leadArtist
  | artist
  | conductor
  | band
  | composer
  | lyricist
  | recordingLocation
  | duringRecording
  | duringPerformance
  | screenCapture
  | brightFish
  | illustration
  | bandLogo
  | publisherLogo
deriving DecidableEq, Repr

/-- The enum discriminant (`picture_type as u32`). -/
def PictureType.to_u32 : PictureType → Nat
  | .other => 0
  | .icon => 1
  | .otherIcon => 2
  | .coverFront => 3
  | .coverBack => 4
  | .leaflet => 5
  | .media => 6
  | .leadArtist => 7
  | .artist => 8
  | .conductor => 9
  | .band => 10
  | .composer => 11
  | .lyricist => 12
  | .recordingLocation => 13
  | .duringRecording => 14
  | .duringPerformance => 15
  | .screenCapture => 16
  | .brightFish => 17
  | .illustration => 18
  | .bandLogo => 19
  | .publisherLogo => 20

/-- `PictureType::from_u32`: codes 0-20, `None` otherwise. -/
def PictureType.from_u32 (n : Nat) : Option PictureType :=
  match n with
  | 0 => some .other
  | 1 => some .icon
  | 2 => some .otherIcon
  | 3 => some .coverFront
  | 4 => some .coverBack
  | 5 => some .leaflet
  | 6 => some .media
  | 7 => some .leadArtist
  | 8 => some .artist
  | 9 => some .conductor
  | 10 => some .band
  | 11 => some .composer
  | 12 => some .lyricist
  | 13 => some .recordingLocation
  | 14 => some .duringRecording
  | 15 => some .duringPerformance
  | 16 => some .screenCapture
  | 17 => some .brightFish
  | 18 => some .illustration
  | 19 => some .bandLogo
  | 20 => some .publisherLogo
  | _ => none

theorem PictureType.from_to (t : PictureType) :
    PictureType.from_u32 t.to_u32 = some t := by
  cases t <;> rfl

/-- A PICTURE block.  `mime_type` and `description` are `String`s in the
source, modelled as UTF-8 byte lists; the four dimension fields are `u32`. -/
structure Picture where
  picture_type : PictureType
  mime_type : List Nat
  description : List Nat
  width : Nat
  height : Nat
  depth : Nat
  num_colors : Nat
  data : List Nat
deriving DecidableEq, Repr

/-- `Picture::new()`. -/
def Picture.new : Picture := ⟨.other, [], [], 0, 0, 0, 0, []⟩

/-- `Picture::to_bytes`: type code, then length-prefixed MIME and
description, four `u32` fields, and the length-prefixed data. -/
def Picture.to_bytes (p : Picture) : List Nat :=
  beBytes 4 p.picture_type.to_u32
    ++ beBytes 4 p.mime_type.length ++ p.mime_type
    ++ beBytes 4 p.description.length ++ p.description
    ++ beBytes 4 p.width ++ beBytes 4 p.height
    ++ beBytes 4 p.depth ++ beBytes 4 p.num_colors
    ++ beBytes 4 p.data.length ++ p.data

/-- `Picture::from_bytes`: an unmapped type code is an `InvalidInput` error;
invalid UTF-8 in MIME/description is a string-decoding error; a region
running past the payload end is an out-of-bounds panic (`none`). -/
def Picture.from_bytes (bytes : List Nat) : Option (Except Err Picture) := do
  let (ptb, r1) ← takeN bytes 4
  match PictureType.from_u32 (beVal ptb) with
  | none => some (.error .invalidInput)
  | some pt => do
    let (mlb, r2) ← takeN r1 4
    let (mime, r3) ← takeN r2 (beVal mlb)
    if utf8Valid mime then do
      let (dlb, r4) ← takeN r3 4
      let (descr, r5) ← takeN r4 (beVal dlb)
      if utf8Valid descr then do
        let (wb, r6) ← takeN r5 4
        let (hb, r7) ← takeN r6 4
        let (db, r8) ← takeN r7 4
        let (cb, r9) ← takeN r8 4
        let (datalb, r10) ← takeN r9 4
        let (data, _) ← takeN r10 (beVal datalb)
        some (.ok
          { picture_type := pt
            mime_type := mime
            description := descr
            width := beVal wb
            height := beVal hb
            depth := beVal db
            num_colors := beVal cb
            data := data })
      else some (.error .stringDecoding)
    else some (.error .stringDecoding)

/-- Valid field values for a picture: UTF-8 strings, `u32` bit-widths, and
region lengths below `2^32` (the length-prefix width). -/
@[reducible] def Picture.valid (p : Picture) : Prop :=
  utf8Valid p.mime_type = true ∧ p.mime_type.length < 2 ^ 32 ∧
    utf8Valid p.description = true ∧ p.description.length < 2 ^ 32 ∧
    p.width < 2 ^ 32 ∧ p.height < 2 ^ 32 ∧ p.depth < 2 ^ 32 ∧
    p.num_colors < 2 ^ 32 ∧ p.data.length < 2 ^ 32

theorem Picture.roundtrip_picture (p : Picture) (h : p.valid) :
    Picture.from_bytes p.to_bytes = some (.ok p) := by
  obtain ⟨pt, mime, descr, w, ht, d, nc, data⟩ := p
  obtain ⟨h1, h2, h3, h4, h5, h6, h7, h8, h9⟩ := h
  dsimp only [Picture.valid] at *
  have hm : beVal (beBytes 4 mime.length) = mime.length := by
    rw [beVal_beBytes]; norm_num; omega
  have hd : beVal (beBytes 4 descr.length) = descr.length := by
    rw [beVal_beBytes]; norm_num; omega
  have hdata : beVal (beBytes 4 data.length) = data.length := by
    rw [beVal_beBytes]; norm_num; omega
  rw [Picture.to_bytes, Picture.from_bytes]
  simp only [List.append_assoc]
  rw [takeN_append _ (beBytes_length 4 _)]
  simp only [Option.bind_eq_bind, Option.some_bind]
  rw [beVal_beBytes]
  norm_num
  rw [show PictureType.to_u32 pt % 4294967296 = PictureType.to_u32 pt from by
    cases pt <;> rfl]
  rw [PictureType.from_to]
  rw [takeN_append _ (beBytes_length 4 _)]
  simp only [Option.some_bind]
  rw [hm, takeN_append _ rfl]
  simp only [Option.some_bind]
  rw [if_pos h1]
  rw [takeN_append _ (beBytes_length 4 _)]
  simp only [Option.some_bind]
  rw [hd, takeN_append _ rfl]
  simp only [Option.some_bind]
  rw [if_pos h3]
  rw [takeN_append _ (beBytes_length 4 _)]
  simp only [Option.some_bind]
  rw [takeN_append _ (beBytes_length 4 _)]
  simp only [Option.some_bind]
  rw [takeN_append _ (beBytes_length 4 _)]
  simp only [Option.some_bind]
  rw [takeN_append _ (beBytes_length 4 _)]
  simp only [Option.some_bind]
  rw [takeN_append _ (beBytes_length 4 _)]
  simp only [Option.some_bind]
  rw [hdata, takeN_exact rfl]
  simp only [Option.some_bind]
  simp only [Option.some.injEq, Except.ok.injEq, Picture.mk.injEq, beVal_beBytes]
  norm_num
  exact ⟨by omega, by omega, by omega, by omega⟩

/-!
## CueSheet (src/block.rs, `CueSheetTrackIndex`, `CueSheetTrack`, `CueSheet`)
-/

/-- A cuesheet track index point: `u64` offset, `u8` point number. -/
structure CueSheetTrackIndex where
  offset : Nat
  point_num : Nat
deriving DecidableEq, Repr

/-- `CueSheetTrackIndex::new()`. -/
def CueSheetTrackIndex.new : CueSheetTrackIndex := ⟨0, 0⟩

/-- The 12 bytes written per index point: offset, point number, 3 reserved
zero bytes. -/
def CueSheetTrackIndex.to_bytes (i : CueSheetTrackIndex) : List Nat :=
  beBytes 8 i.offset ++ [i.point_num % 256] ++ List.replicate 3 0

/-- A cuesheet track.  `isrc` is a `String` in the source (UTF-8 bytes). -/
structure CueSheetTrack where
  offset : Nat
  number : Nat
  isrc : List Nat
  is_audio : Bool
  pre_emphasis : Bool
  indices : List CueSheetTrackIndex
deriving DecidableEq, Repr

/-- `CueSheetTrack::new()`. -/
def CueSheetTrack.new : CueSheetTrack := ⟨0, 0, [], true, false, []⟩

/-- The flags byte of a track: bit 7 clear for audio, bit 6 set for
pre-emphasis. -/
def CueSheetTrack.flags_byte (t : CueSheetTrack) : Nat :=
  (if t.is_audio then 0 else 128) + (if t.pre_emphasis then 64 else 0)

/-- The bytes written for one track (before the `isrc` length assertion):
offset, number, NUL-padded 12-byte ISRC, flags, 13 reserved zero bytes,
index count, then the index records. -/
def CueSheetTrack.raw_bytes (t : CueSheetTrack) : List Nat :=
  beBytes 8 t.offset ++ [t.number % 256]
    ++ t.isrc ++ List.replicate (12 - t.isrc.length) 0
    ++ [t.flags_byte] ++ List.replicate 13 0
    ++ [t.indices.length % 256]
    ++ (t.indices.map CueSheetTrackIndex.to_bytes).flatten

/-- Per-track serialization; `assert!(track.isrc.len() <= 12)` panics
(`none`) on an over-long ISRC. -/
def CueSheetTrack.to_bytes (t : CueSheetTrack) : Option (List Nat) :=
  if t.isrc.length ≤ 12 then some t.raw_bytes else none

/-- A CUESHEET block.  `catalog_num` is a `String` (UTF-8 bytes). -/
structure CueSheet where
  catalog_num : List Nat
  num_leadin : Nat
  is_cd : Bool
  tracks : List CueSheetTrack
deriving DecidableEq, Repr

/-- `CueSheet::new()`: a CD cuesheet with empty values. -/
def CueSheet.new : CueSheet := ⟨[], 0, true, []⟩

/-- `CueSheet::to_bytes`: NUL-padded 128-byte catalog number, lead-in,
flags byte (bit 7 = is_cd), 258 reserved zero bytes, track count, track
records.  `assert!(catalog_num.len() <= 128)` and the per-track ISRC
assertion panic (`none`) when violated. -/
def CueSheet.to_bytes (c : CueSheet) : Option (List Nat) :=
  if c.catalog_num.length ≤ 128 then
    (c.tracks.mapM CueSheetTrack.to_bytes).map fun tbs =>
      c.catalog_num ++ List.replicate (128 - c.catalog_num.length) 0
        ++ beBytes 8 c.num_leadin ++ [if c.is_cd then 128 else 0]
        ++ List.replicate 258 0 ++ [c.tracks.length % 256]
        ++ tbs.flatten
  else none

/-- The index-point parse loop: `num_indices` records of 8 + 1 + 3 bytes;
the 3 reserved bytes are skipped with an unchecked `i += 3`. -/
def CueSheet.parseIndices :
    Nat → List Nat → Option (List CueSheetTrackIndex × List Nat)
  | 0, r => some ([], r)
  | n + 1, r => do
    let (ofb, r1) ← takeN r 8
    let (pnb, r2) ← takeN r1 1
    let r3 := r2.drop 3
    let (ixs, r4) ← CueSheet.parseIndices n r3
    some (⟨beVal ofb, pnb.headD 0⟩ :: ixs, r4)

/-- The track parse loop: offset, number, 12-byte ISRC (UTF-8 checked),
flags, 13 reserved bytes skipped unchecked, index count, index records. -/
def CueSheet.parseTracks :
    Nat → List Nat → Option (Except Err (List CueSheetTrack × List Nat))
  | 0, r => some (.ok ([], r))
  | n + 1, r => do
    let (ofb, r1) ← takeN r 8
    let (numb, r2) ← takeN r1 1
    let (isrc, r3) ← takeN r2 12
    if utf8Valid isrc then do
      let (flb, r4) ← takeN r3 1
      let flags := flb.headD 0
      let r5 := r4.drop 13
      let (nib, r6) ← takeN r5 1
      let (ixs, r7) ← CueSheet.parseIndices (nib.headD 0) r6
      match CueSheet.parseTracks n r7 with
      | none => none
      | some (.error e) => some (.error e)
      | some (.ok (ts, r8)) =>
        some (.ok
          ({ offset := beVal ofb
             number := numb.headD 0
             isrc := isrc
             is_audio := flags / 128 % 2 == 0
             pre_emphasis := flags / 64 % 2 == 1
             indices := ixs } :: ts, r8))
    else some (.error .stringDecoding)

/-- `CueSheet::from_bytes`: 128-byte catalog string (UTF-8 checked), 8-byte
lead-in, flags byte, 258 reserved bytes skipped unchecked, track count,
track records. -/
def CueSheet.from_bytes (bytes : List Nat) : Option (Except Err CueSheet) := do
  let (cat, r1) ← takeN bytes 128
  if utf8Valid cat then do
    let (lib, r2) ← takeN r1 8
    let (fb, r3) ← takeN r2 1
    let r4 := r3.drop 258
    let (ntb, r5) ← takeN r4 1
    match CueSheet.parseTracks (ntb.headD 0) r5 with
    | none => none
    | some (.error e) => some (.error e)
    | some (.ok (ts, _)) =>
      some (.ok
        { catalog_num := cat
          num_leadin := beVal lib
          is_cd := (fb.headD 0) / 128 % 2 == 1
          tracks := ts })
  else some (.error .stringDecoding)

@[reducible] def CueSheetTrackIndex.valid (i : CueSheetTrackIndex) : Prop :=
  i.offset < 2 ^ 64 ∧ i.point_num < 256

/-- Track fields on which the round-trip is exact: an ISRC of exactly 12
bytes (shorter ISRCs come back NUL-padded), in-range numerics. -/
@[reducible] def CueSheetTrack.validExact (t : CueSheetTrack) : Prop :=
  t.offset < 2 ^ 64 ∧ t.number < 256 ∧ t.isrc.length = 12 ∧
    utf8Valid t.isrc = true ∧ t.indices.length ≤ 255 ∧
    ∀ i ∈ t.indices, i.valid

/-- CueSheet fields on which the round-trip is exact: a catalog number of
exactly 128 bytes (shorter ones come back NUL-padded), in-range numerics. -/
@[reducible] def CueSheet.validExact (c : CueSheet) : Prop :=
  c.catalog_num.length = 128 ∧ utf8Valid c.catalog_num = true ∧
    c.num_leadin < 2 ^ 64 ∧ c.tracks.length ≤ 255 ∧
    ∀ t ∈ c.tracks, t.validExact

theorem CueSheet.parseIndices_roundtrip (ixs : List CueSheetTrackIndex)
    (rest : List Nat) (h : ∀ i ∈ ixs, i.valid) :
    CueSheet.parseIndices ixs.length
        ((ixs.map CueSheetTrackIndex.to_bytes).flatten ++ rest)
      = some (ixs, rest) := by
  induction ixs with
  | nil => simp [CueSheet.parseIndices]
  | cons i tl ih =>
    obtain ⟨ioff, ipn⟩ := i
    obtain ⟨hv1, hv2⟩ := h ⟨ioff, ipn⟩ (List.mem_cons_self _ _)
    dsimp only at hv1 hv2
    simp only [List.map_cons, List.flatten_cons, List.length_cons]
    rw [CueSheet.parseIndices, CueSheetTrackIndex.to_bytes]
    dsimp only
    simp only [List.append_assoc]
    rw [takeN_append _ (beBytes_length 8 _)]
    simp only [Option.bind_eq_bind, Option.some_bind]
    rw [takeN_append _ (by simp)]
    simp only [Option.some_bind, List.headD_cons]
    rw [List.drop_left' (by simp : (List.replicate 3 0).length = 3)]
    rw [ih (fun j hj => h j (by simp [hj]))]
    simp only [Option.some_bind]
    have hoff : beVal (beBytes 8 ioff) = ioff := by
      rw [beVal_beBytes]; omega
    have hpn : ipn % 256 = ipn := by omega
    rw [hoff, hpn]

theorem CueSheetTrack.mapM_to_bytes (ts : List CueSheetTrack)
    (h : ∀ t ∈ ts, t.isrc.length ≤ 12) :
    ts.mapM CueSheetTrack.to_bytes = some (ts.map CueSheetTrack.raw_bytes) := by
  induction ts with
  | nil => rfl
  | cons t tl ih =>
    rw [List.mapM_cons, CueSheetTrack.to_bytes, if_pos (h t (by simp))]
    rw [ih (fun u hu => h u (by simp [hu]))]
    rfl

theorem CueSheet.parseTracks_roundtrip (ts : List CueSheetTrack)
    (rest : List Nat) (h : ∀ t ∈ ts, t.validExact) :
    CueSheet.parseTracks ts.length
        ((ts.map CueSheetTrack.raw_bytes).flatten ++ rest)
      = some (.ok (ts, rest)) := by
  induction ts with
  | nil => simp [CueSheet.parseTracks]
  | cons t tl ih =>
    obtain ⟨toff, tnum, tisrc, taud, tpre, tixs⟩ := t
    obtain ⟨hv1, hv2, hv3, hv4, hv5, hv6⟩ :=
      h ⟨toff, tnum, tisrc, taud, tpre, tixs⟩ (List.mem_cons_self _ _)
    dsimp only at hv1 hv2 hv3 hv4 hv5 hv6
    simp only [List.map_cons, List.flatten_cons, List.length_cons]
    rw [CueSheet.parseTracks, CueSheetTrack.raw_bytes]
    dsimp only
    simp only [List.append_assoc, hv3, Nat.sub_self, List.replicate_zero,
      List.nil_append]
    rw [takeN_append _ (beBytes_length 8 _)]
    simp only [Option.bind_eq_bind, Option.some_bind]
    rw [takeN_append _ (by simp)]
    simp only [Option.some_bind, List.headD_cons]
    rw [takeN_append _ hv3]
    simp only [Option.some_bind]
    rw [if_pos hv4]
    rw [takeN_append _ (by simp)]
    simp only [Option.some_bind, List.headD_cons]
    rw [List.drop_left' (by simp : (List.replicate 13 0).length = 13)]
    rw [takeN_append _ (by simp)]
    simp only [Option.some_bind, List.headD_cons]
    rw [show tixs.length % 256 = tixs.length from by omega]
    rw [CueSheet.parseIndices_roundtrip tixs _ hv6]
    simp only [Option.some_bind]
    rw [ih (fun u hu => h u (by simp [hu]))]
    simp only [Option.some_bind]
    have hoff : beVal (beBytes 8 toff) = toff := by
      rw [beVal_beBytes]; omega
    have hnum : tnum % 256 = tnum := by omega
    have haud : (CueSheetTrack.flags_byte ⟨toff, tnum, tisrc, taud, tpre, tixs⟩ / 128 % 2 == 0) = taud := by
      cases taud <;> cases tpre <;> norm_num [CueSheetTrack.flags_byte]
    have hpre : (CueSheetTrack.flags_byte ⟨toff, tnum, tisrc, taud, tpre, tixs⟩ / 64 % 2 == 1) = tpre := by
      cases taud <;> cases tpre <;> norm_num [CueSheetTrack.flags_byte]
    rw [hoff, hnum, haud, hpre]

theorem CueSheet.roundtrip_cuesheet (c : CueSheet) (bs : List Nat)
    (h : c.validExact) (hbs : c.to_bytes = some bs) :
    CueSheet.from_bytes bs = some (.ok c) := by
  obtain ⟨ccat, clead, ccd, ctracks⟩ := c
  obtain ⟨hv1, hv2, hv3, hv4, hv5⟩ := h
  dsimp only [CueSheet.validExact] at hv1 hv2 hv3 hv4 hv5
  rw [CueSheet.to_bytes] at hbs
  dsimp only at hbs
  rw [if_pos (by omega)] at hbs
  rw [CueSheetTrack.mapM_to_bytes _ (fun t ht => by
    have := (hv5 t ht).2.2.1
    omega)] at hbs
  simp only [Option.map_some', Option.some.injEq] at hbs
  subst hbs
  rw [CueSheet.from_bytes]
  simp only [List.append_assoc, hv1, Nat.sub_self, List.replicate_zero,
    List.nil_append]
  rw [takeN_append _ hv1]
  simp only [Option.bind_eq_bind, Option.some_bind]
  rw [if_pos hv2]
  rw [takeN_append _ (beBytes_length 8 _)]
  simp only [Option.some_bind]
  rw [takeN_append _ (by simp)]
  simp only [Option.some_bind, List.headD_cons]
  rw [List.drop_left' (List.length_replicate 258 0)]
  rw [takeN_append _ (by simp)]
  simp only [Option.some_bind, List.headD_cons]
  rw [show ctracks.length % 256 = ctracks.length from by omega]
  have := CueSheet.parseTracks_roundtrip ctracks [] hv5
  rw [List.append_nil] at this
  rw [this]
  have hlead : beVal (beBytes 8 clead) = clead := by
    rw [beVal_beBytes]; omega
  have hcd : ((if ccd then (128 : Nat) else 0) / 128 % 2 == 1) = ccd := by
    cases ccd <;> norm_num
  rw [hlead, hcd]

/-!
## VorbisComment (src/block.rs, `VorbisComment`)

The source stores comments in a `HashMap<String, Vec<String>>`.  The
embedding uses an association list with distinct keys, keyed and iterated
in first-insertion order; this refines the hash map (equality of the lists
implies equality of the maps), and `from_bytes` rebuilds first-insertion
order, so the round-trip below is stated with list equality.
-/

/-- `HashMap::entry(key).or_insert_with(Vec::new).push(value)`: append the
value under an existing key, or add the key at the end. -/
def insertComment (m : List (List Nat × List (List Nat))) (k v : List Nat) :
    List (List Nat × List (List Nat)) :=
  match m with
  | [] => [(k, [v])]
  | (k', vs) :: rest =>
    if k' = k then (k', vs ++ [v]) :: rest else (k', vs) :: insertComment rest k v

/-- A VORBIS_COMMENT block: vendor string plus the key-to-values map. -/
structure VorbisComment where
  vendor_string : List Nat
  comments : List (List Nat × List (List Nat))
deriving DecidableEq, Repr

/-- `VorbisComment::new()`. -/
def VorbisComment.new : VorbisComment := ⟨[], []⟩

/-- Total number of comment values (`values().fold(0, |acc, l| acc + l.len())`,
a `u32` sum). -/
def totalComments (m : List (List Nat × List (List Nat))) : Nat :=
  (m.map fun e => e.2.length).sum

/-- The bytes of one `KEY=value` entry: little-endian length prefix, then
`format!("{}={}", key, value)`. -/
def entryBytes (k v : List Nat) : List Nat :=
  leBytes 4 (k.length + 1 + v.length) ++ (k ++ 61 :: v)

/-- `VorbisComment::to_bytes`: length-prefixed vendor string, value count,
then every `KEY=value` entry, keys in map iteration order.  All length
prefixes are little-endian. -/
def VorbisComment.to_bytes (v : VorbisComment) : List Nat :=
  leBytes 4 v.vendor_string.length ++ v.vendor_string
    ++ leBytes 4 (totalComments v.comments)
    ++ (v.comments.map fun e => (e.2.map (entryBytes e.1)).flatten).flatten

/-- The comment parse loop of `VorbisComment::from_bytes`: `n` entries,
each a length-prefixed UTF-8 string split at its first `=`; the key is
upper-cased and the value appended under it.  An entry without `=` panics
(`comments_split[1]` out of bounds, `none`); invalid UTF-8 is a
string-decoding error. -/
def VorbisComment.parseComments (n : Nat) (r : List Nat)
    (acc : List (List Nat × List (List Nat))) :
    Option (Except Err (List (List Nat × List (List Nat)))) :=
  match n with
  | 0 => some (.ok acc)
  | n + 1 => do
    let (clb, r1) ← takeN r 4
    let (cb, r2) ← takeN r1 (leVal clb)
    if utf8Valid cb then
      match splitEq cb with
      | none => none
      | some (k, v) =>
        VorbisComment.parseComments n r2 (insertComment acc (upperAscii k) v)
    else some (.error .stringDecoding)

/-- `VorbisComment::from_bytes`: little-endian vendor length, UTF-8 vendor
string, little-endian value count, then the comment entries. -/
def VorbisComment.from_bytes (bytes : List Nat) :
    Option (Except Err VorbisComment) := do
  let (vlb, r1) ← takeN bytes 4
  let (vendor, r2) ← takeN r1 (leVal vlb)
  if utf8Valid vendor then do
    let (ncb, r3) ← takeN r2 4
    match VorbisComment.parseComments (leVal ncb) r3 [] with
    | none => none
    | some (.error e) => some (.error e)
    | some (.ok m) => some (.ok ⟨vendor, m⟩)
  else some (.error .stringDecoding)

/-- `VorbisComment::get`. -/
def VorbisComment.get (v : VorbisComment) (key : List Nat) :
    Option (List (List Nat)) :=
  (v.comments.find? fun e => e.1 == key).map fun e => e.2

/-- `HashMap::remove(key)`, in first-insertion order. -/
def removeKey (m : List (List Nat × List (List Nat))) (key : List Nat) :
    List (List Nat × List (List Nat)) :=
  m.filter fun e => e.1 ≠ key

/-- `VorbisComment::remove`. -/
def VorbisComment.remove (v : VorbisComment) (key : List Nat) : VorbisComment :=
  { v with comments := removeKey v.comments key }

/-- `VorbisComment::set`: remove the key then insert the new values
(`HashMap::insert`; the embedding appends the fresh key at the end). -/
def VorbisComment.set (v : VorbisComment) (key : List Nat)
    (values : List (List Nat)) : VorbisComment :=
  { v with comments := removeKey v.comments key ++ [(key, values)] }

/-- `VorbisComment::remove_pair`: drop matching values for the key, then
drop the key when no values remain. -/
def VorbisComment.remove_pair (v : VorbisComment) (key value : List Nat) :
    VorbisComment :=
  let v1 : VorbisComment :=
    { v with
      comments := v.comments.map fun e =>
        if e.1 = key then (e.1, e.2.filter fun s => s ≠ value) else e }
  let num_values := ((v1.get key).map List.length).getD 0
  if num_values = 0 then v1.remove key else v1

/-- Valid map contents for the round-trip: distinct upper-case-fixed keys
without `=`, at least one value per key, UTF-8 strings, length prefixes and
the value count below `2^32`. -/
@[reducible] def VorbisComment.valid (v : VorbisComment) : Prop :=
  utf8Valid v.vendor_string = true ∧ v.vendor_string.length < 2 ^ 32 ∧
    totalComments v.comments < 2 ^ 32 ∧
    v.comments.Pairwise (fun a b => a.1 ≠ b.1) ∧
    ∀ e ∈ v.comments,
      upperAscii e.1 = e.1 ∧ 61 ∉ e.1 ∧ utf8Valid e.1 = true ∧ e.2 ≠ [] ∧
        ∀ s ∈ e.2, utf8Valid s = true ∧ e.1.length + 1 + s.length < 2 ^ 32

theorem insertComment_fresh (m : List (List Nat × List (List Nat)))
    (k v : List Nat) (h : ∀ e ∈ m, e.1 ≠ k) :
    insertComment m k v = m ++ [(k, [v])] := by
  induction m with
  | nil => rfl
  | cons e rest ih =>
    obtain ⟨k', vs⟩ := e
    rw [insertComment]
    rw [if_neg (h (k', vs) (List.mem_cons_self _ _))]
    rw [ih (fun e he => h e (List.mem_cons_of_mem _ he))]
    rfl

theorem insertComment_append_last (acc : List (List Nat × List (List Nat)))
    (k v : List Nat) (vs0 : List (List Nat)) (h : ∀ e ∈ acc, e.1 ≠ k) :
    insertComment (acc ++ [(k, vs0)]) k v = acc ++ [(k, vs0 ++ [v])] := by
  induction acc with
  | nil => simp [insertComment]
  | cons e rest ih =>
    obtain ⟨k', vs⟩ := e
    rw [List.cons_append, insertComment]
    rw [if_neg (h (k', vs) (List.mem_cons_self _ _))]
    rw [ih (fun e he => h e (List.mem_cons_of_mem _ he))]
    rfl

theorem foldl_insertComment_existing (ss : List (List Nat))
    (acc : List (List Nat × List (List Nat))) (k : List Nat)
    (vs0 : List (List Nat)) (h : ∀ e ∈ acc, e.1 ≠ k) :
    ss.foldl (fun m s => insertComment m k s) (acc ++ [(k, vs0)])
      = acc ++ [(k, vs0 ++ ss)] := by
  induction ss generalizing vs0 with
  | nil => simp
  | cons s tl ih =>
    rw [List.foldl_cons, insertComment_append_last acc k s vs0 h, ih (vs0 ++ [s])]
    simp

theorem foldl_insertComment_fresh (ss : List (List Nat))
    (acc : List (List Nat × List (List Nat))) (k : List Nat)
    (h : ∀ e ∈ acc, e.1 ≠ k) (hne : ss ≠ []) :
    ss.foldl (fun m s => insertComment m k s) acc = acc ++ [(k, ss)] := by
  cases ss with
  | nil => exact absurd rfl hne
  | cons s tl =>
    rw [List.foldl_cons, insertComment_fresh acc k s h,
      foldl_insertComment_existing tl acc k [s] h]
    rfl

theorem VorbisComment.parse_step (k v rest : List Nat) (n : Nat)
    (acc : List (List Nat × List (List Nat)))
    (hk61 : 61 ∉ k) (hku : utf8Valid k = true) (hvu : utf8Valid v = true)
    (hlen : k.length + 1 + v.length < 2 ^ 32) :
    VorbisComment.parseComments (n + 1) (entryBytes k v ++ rest) acc
      = VorbisComment.parseComments n rest (insertComment acc (upperAscii k) v) := by
  have hshape : entryBytes k v ++ rest
      = leBytes 4 (k.length + 1 + v.length) ++ ((k ++ 61 :: v) ++ rest) := by
    rw [entryBytes, List.append_assoc]
  rw [VorbisComment.parseComments, hshape]
  rw [takeN_append _ (leBytes_length 4 _)]
  simp only [Option.bind_eq_bind, Option.some_bind]
  rw [leVal_leBytes]
  rw [show (k.length + 1 + v.length) % 256 ^ 4 = k.length + 1 + v.length from by
    have hpow : (256 : Nat) ^ 4 = 4294967296 := by norm_num
    rw [hpow]
    omega]
  rw [takeN_append _ (by
    simp only [List.length_append, List.length_cons]
    omega : (k ++ 61 :: v).length = k.length + 1 + v.length)]
  simp only [Option.some_bind]
  have hentry : utf8Valid (k ++ 61 :: v) = true := by
    refine utf8Valid_append _ _ hku ?_
    rw [utf8Valid_cons_ascii 61 v (by norm_num)]
    exact hvu
  rw [if_pos hentry, splitEq_append hk61]

theorem VorbisComment.parse_entries (k : List Nat) (ss : List (List Nat))
    (n : Nat) (rest : List Nat) (acc : List (List Nat × List (List Nat)))
    (hk61 : 61 ∉ k) (hku : utf8Valid k = true) (hkup : upperAscii k = k)
    (hss : ∀ s ∈ ss, utf8Valid s = true ∧ k.length + 1 + s.length < 2 ^ 32) :
    VorbisComment.parseComments (ss.length + n)
        ((ss.map (entryBytes k)).flatten ++ rest) acc
      = VorbisComment.parseComments n rest
          (ss.foldl (fun m s => insertComment m k s) acc) := by
  induction ss generalizing acc with
  | nil => simp
  | cons s tl ih =>
    obtain ⟨hs1, hs2⟩ := hss s (List.mem_cons_self _ _)
    simp only [List.map_cons, List.flatten_cons, List.length_cons,
      List.foldl_cons]
    rw [List.append_assoc]
    rw [show tl.length + 1 + n = (tl.length + n) + 1 from by omega]
    rw [VorbisComment.parse_step k s _ _ acc hk61 hku hs1 hs2, hkup]
    exact ih _ (fun s hs => hss s (List.mem_cons_of_mem _ hs))

theorem VorbisComment.parse_map (m : List (List Nat × List (List Nat)))
    (n : Nat) (rest : List Nat) (acc : List (List Nat × List (List Nat)))
    (hdist : m.Pairwise (fun a b => a.1 ≠ b.1))
    (hfresh : ∀ e ∈ m, ∀ e' ∈ acc, e'.1 ≠ e.1)
    (hm : ∀ e ∈ m,
      upperAscii e.1 = e.1 ∧ 61 ∉ e.1 ∧ utf8Valid e.1 = true ∧ e.2 ≠ [] ∧
        ∀ s ∈ e.2, utf8Valid s = true ∧ e.1.length + 1 + s.length < 2 ^ 32) :
    VorbisComment.parseComments (totalComments m + n)
        ((m.map fun e => (e.2.map (entryBytes e.1)).flatten).flatten ++ rest) acc
      = VorbisComment.parseComments n rest (acc ++ m) := by
  induction m generalizing acc with
  | nil => simp [totalComments]
  | cons e tl ih =>
    obtain ⟨k, vs⟩ := e
    obtain ⟨he1, he2, he3, he4, he5⟩ := hm (k, vs) (List.mem_cons_self _ _)
    dsimp only at he1 he2 he3 he4 he5
    have htot : totalComments ((k, vs) :: tl) = vs.length + totalComments tl := by
      simp [totalComments]
    rw [htot]
    simp only [List.map_cons, List.flatten_cons]
    rw [List.append_assoc]
    rw [show vs.length + totalComments tl + n = vs.length + (totalComments tl + n)
      from by omega]
    rw [VorbisComment.parse_entries k vs _ _ acc he2 he3 he1 he5]
    rw [foldl_insertComment_fresh vs acc k
      (fun e' he' => hfresh (k, vs) (List.mem_cons_self _ _) e' he') he4]
    rw [ih _ (List.Pairwise.sublist (List.sublist_cons_self _ _) hdist)
      (fun e he e' he' => by
        rcases List.mem_append.1 he' with hacc | hsing
        · exact hfresh e (List.mem_cons_of_mem _ he) e' hacc
        · rcases List.mem_singleton.1 hsing with rfl
          exact (List.pairwise_cons.1 hdist).1 e he)
      (fun e he => hm e (List.mem_cons_of_mem _ he))]
    simp

theorem VorbisComment.roundtrip_vorbis (v : VorbisComment) (h : v.valid) :
    VorbisComment.from_bytes v.to_bytes = some (.ok v) := by
  obtain ⟨ven, m⟩ := v
  obtain ⟨h1, h2, h3, h4, h5⟩ := h
  dsimp only at h1 h2 h3 h4 h5
  rw [VorbisComment.to_bytes, VorbisComment.from_bytes]
  dsimp only
  simp only [List.append_assoc]
  rw [takeN_append _ (leBytes_length 4 _)]
  simp only [Option.bind_eq_bind, Option.some_bind]
  rw [leVal_leBytes]
  rw [show ven.length % 256 ^ 4 = ven.length from by
    have hpow : (256 : Nat) ^ 4 = 4294967296 := by norm_num
    rw [hpow]
    omega]
  rw [takeN_append _ rfl]
  simp only [Option.some_bind]
  rw [if_pos h1]
  rw [takeN_append _ (leBytes_length 4 _)]
  simp only [Option.some_bind]
  rw [leVal_leBytes]
  rw [show totalComments m % 256 ^ 4 = totalComments m from by
    have hpow : (256 : Nat) ^ 4 = 4294967296 := by norm_num
    rw [hpow]
    omega]
  have hmain := VorbisComment.parse_map m 0 [] [] h4 (by simp) h5
  rw [List.append_nil, Nat.add_zero, List.nil_append] at hmain
  rw [hmain]
  rfl

/-!
## Block envelope and block type registry (src/block.rs, `BlockType`, `Block`)
-/

/-- Block type codes 0-6 plus the unknown/reserved catch-all. -/
inductive BlockType where
  | streamInfo
  | padding
  | application
  | seekTable
  | vorbisComment
  | cueSheet
  | picture
  | unknown (n : Nat)
deriving DecidableEq, Repr

/-- `BlockType::to_u8`. -/
def BlockType.to_u8 : BlockType → Nat
  | .streamInfo => 0
  | .padding => 1
  | .application => 2
  | .seekTable => 3
  | .vorbisComment => 4
  | .cueSheet => 5
  | .picture => 6
  | .unknown n => n

/-- `BlockType::from_u8`. -/
def BlockType.from_u8 (n : Nat) : BlockType :=
  match n with
  | 0 => .streamInfo
  | 1 => .padding
  | 2 => .application
  | 3 => .seekTable
  | 4 => .vorbisComment
  | 5 => .cueSheet
  | 6 => .picture
  | n => .unknown n

/-- The parsed content of a metadata block (`Block`). -/
inductive Block where
  | streamInfo (s : StreamInfo)
  | application (a : Application)
  | cueSheet (c : CueSheet)
  | padding (size : Nat)
  | picture (p : Picture)
  | seekTable (t : SeekTable)
  | vorbisComment (v : VorbisComment)
  | unknown (code : Nat) (data : List Nat)
deriving DecidableEq, Repr

/-- `Block::block_type`. -/
def Block.block_type : Block → BlockType
  | .streamInfo _ => .streamInfo
  | .application _ => .application
  | .cueSheet _ => .cueSheet
  | .padding _ => .padding
  | .picture _ => .picture
  | .seekTable _ => .seekTable
  | .vorbisComment _ => .vorbisComment
  | .unknown code _ => .unknown code

/-- `Block::write_to`: the 4-byte header (last-flag bit, 7-bit type code,
24-bit big-endian content length) followed by the payload.  A padding
block's payload is `size` zero bytes, written without materializing (the
source emits them in 1 KiB chunks); `none` is a serialization panic
(CueSheet assertions).  The byte list returned has length
`content_len + 4`, the `u32` the source returns. -/
def Block.write_to (b : Block) (is_last : Bool) : Option (List Nat) := do
  let (content_len, contents) ←
    match b with
    | .streamInfo s => some (s.to_bytes.length, s.to_bytes)
    | .application a => some (a.to_bytes.length, a.to_bytes)
    | .cueSheet c => c.to_bytes.map fun bs => (bs.length, bs)
    | .padding size => some (size, List.replicate size 0)
    | .picture p => some (p.to_bytes.length, p.to_bytes)
    | .seekTable t => some (t.to_bytes.length, t.to_bytes)
    | .vorbisComment v => some (v.to_bytes.length, v.to_bytes)
    | .unknown _ data => some (data.length, data)
  some (((if is_last then 128 else 0) + b.block_type.to_u8 % 128)
    :: (beBytes 3 content_len ++ contents))

/-- `Block::read_from`: read the header byte (EOF is an I/O error), the
24-bit length (fewer than 3 bytes is an I/O error), then up to `length`
payload bytes (`take(length).read_to_end`, which accepts short data), and
dispatch on the type code.  Result: last-flag, `length + 4`, block,
remaining stream. -/
def Block.read_from (r : List Nat) :
    Option (Except Err (Bool × Nat × Block × List Nat)) :=
  match r with
  | [] => some (.error .io)
  | byte :: r1 =>
    if r1.length < 3 then some (.error .io)
    else
      let is_last := byte / 128 % 2 == 1
      let code := byte % 128
      let length := beVal (r1.take 3)
      let data := (r1.drop 3).take length
      let rest := (r1.drop 3).drop length
      match BlockType.from_u8 code with
      | .streamInfo => (StreamInfo.from_bytes data).map fun s =>
          .ok (is_last, length + 4, .streamInfo s, rest)
      | .padding => some (.ok (is_last, length + 4, .padding length, rest))
      | .application => (Application.from_bytes data).map fun a =>
          .ok (is_last, length + 4, .application a, rest)
      | .seekTable => (SeekTable.from_bytes data).map fun t =>
          .ok (is_last, length + 4, .seekTable t, rest)
      | .vorbisComment => (VorbisComment.from_bytes data).map fun e =>
          e.map fun v => (is_last, length + 4, .vorbisComment v, rest)
      | .cueSheet => (CueSheet.from_bytes data).map fun e =>
          e.map fun c => (is_last, length + 4, .cueSheet c, rest)
      | .picture => (Picture.from_bytes data).map fun e =>
          e.map fun p => (is_last, length + 4, .picture p, rest)
      | .unknown _ => some (.ok (is_last, length + 4, .unknown code data, rest))

/-- The stream identifier bytes `b"fLaC"`. -/
def fLaC : List Nat := [102, 76, 97, 67]

/-- `read_ident` (src/block.rs): read 4 bytes; if they begin an ID3v2.2/3/4
header, read the 6 remaining header bytes, skip the declared
7-bit-per-byte size (plus the 10-byte footer when flagged; a short skip is
not an error, `io::copy` just stops at EOF) and read 4 bytes again; accept
exactly `b"fLaC"`.  Returns the remaining stream. -/
def read_ident (r : List Nat) : Except Err (List Nat) :=
  if 4 ≤ r.length then
    let ident := r.take 4
    let r1 := r.drop 4
    if ident.take 3 = [73, 68, 51]
        && (ident.getD 3 0 == 2 || ident.getD 3 0 == 3 || ident.getD 3 0 == 4) then
      if 6 ≤ r1.length then
        let ht := r1.take 6
        let r2 := r1.drop 6
        let hasFooter := ht.getD 1 0 / 16 % 2 == 1
        let size := ht.getD 2 0 % 128 * 2 ^ 21 + ht.getD 3 0 % 128 * 2 ^ 14
          + ht.getD 4 0 % 128 * 2 ^ 7 + ht.getD 5 0 % 128
        let r3 := r2.drop (if hasFooter then size + 10 else size)
        if 4 ≤ r3.length then
          if r3.take 4 = fLaC then .ok (r3.drop 4) else .error .invalidInput
        else .error .io
      else .error .io
    else if ident = fLaC then .ok r1 else .error .invalidInput
  else .error .io

theorem read_ident_drop_aux {l rem : List Nat} {skip : Nat}
    (h : (if 4 ≤ (l.drop skip).length then
            if (l.drop skip).take 4 = fLaC then Except.ok ((l.drop skip).drop 4)
            else Except.error Err.invalidInput
          else Except.error Err.io) = Except.ok rem) :
    ∃ k, k ≤ l.length ∧ rem = l.drop k := by
  split at h
  case isFalse => exact absurd h (by simp)
  case isTrue hlen =>
    split at h
    case isFalse => exact absurd h (by simp)
    case isTrue =>
      simp only [Except.ok.injEq] at h
      subst h
      refine ⟨skip + 4, ?_, ?_⟩
      · simp only [List.length_drop] at hlen
        omega
      · rw [List.drop_drop]

/-- A successful `read_ident` leaves a suffix of the stream: the remaining
bytes are `r.drop k` for the `k` bytes consumed, with `k ≤ r.length`. -/
theorem read_ident_drop {r rem : List Nat} (h : read_ident r = .ok rem) :
    ∃ k, k ≤ r.length ∧ rem = r.drop k := by
  unfold read_ident at h
  split at h
  case isFalse => exact absurd h (by simp)
  case isTrue h4 =>
    dsimp only at h
    split at h
    case isTrue hid3 =>
      split at h
      case isFalse => exact absurd h (by simp)
      case isTrue h6 =>
        split at h
        all_goals
          obtain ⟨k, hk, rfl⟩ := read_ident_drop_aux h
          simp only [List.length_drop] at hk h6
          refine ⟨k + 10, ?_, ?_⟩
          · omega
          · simp only [List.drop_drop]
            try (congr 1; omega)
    case isFalse =>
      split at h
      case isTrue hflac =>
        simp only [Except.ok.injEq] at h
        subst h
        exact ⟨4, h4, rfl⟩
      case isFalse => exact absurd h (by simp)

/-- A successful block read consumes at least the 4 header bytes: the
remaining stream is strictly shorter. -/
theorem Block.read_from_rest_length {r : List Nat} {il : Bool} {len : Nat}
    {blk : Block} {r1 : List Nat}
    (h : Block.read_from r = some (.ok (il, len, blk, r1))) :
    r1.length < r.length := by
  match r with
  | [] => simp [Block.read_from] at h
  | byte :: rr =>
    rw [Block.read_from] at h
    split at h
    · simp at h
    · have hgoal : ∀ x : List Nat,
          x = (rr.drop 3).drop (beVal (rr.take 3)) → x.length < (byte :: rr).length := by
        intro x hx
        subst hx
        simp only [List.length_drop, List.length_cons]
        omega
      dsimp only at h
      split at h
      case _ =>
        simp only [Option.map_eq_some'] at h
        obtain ⟨s, _, hs⟩ := h
        simp only [Except.ok.injEq, Prod.mk.injEq] at hs
        exact hgoal r1 hs.2.2.2.symm
      case _ =>
        simp only [Option.some.injEq, Except.ok.injEq, Prod.mk.injEq] at h
        exact hgoal r1 h.2.2.2.symm
      case _ =>
        simp only [Option.map_eq_some'] at h
        obtain ⟨a, _, hs⟩ := h
        simp only [Except.ok.injEq, Prod.mk.injEq] at hs
        exact hgoal r1 hs.2.2.2.symm
      case _ =>
        simp only [Option.map_eq_some'] at h
        obtain ⟨st, _, hs⟩ := h
        simp only [Except.ok.injEq, Prod.mk.injEq] at hs
        exact hgoal r1 hs.2.2.2.symm
      case _ =>
        simp only [Option.map_eq_some'] at h
        obtain ⟨e, _, hs⟩ := h
        cases e with
        | error ea => simp [Except.map] at hs
        | ok v =>
          simp only [Except.map, Except.ok.injEq, Prod.mk.injEq] at hs
          exact hgoal r1 hs.2.2.2.symm
      case _ =>
        simp only [Option.map_eq_some'] at h
        obtain ⟨e, _, hs⟩ := h
        cases e with
        | error ea => simp [Except.map] at hs
        | ok v =>
          simp only [Except.map, Except.ok.injEq, Prod.mk.injEq] at hs
          exact hgoal r1 hs.2.2.2.symm
      case _ =>
        simp only [Option.map_eq_some'] at h
        obtain ⟨e, _, hs⟩ := h
        cases e with
        | error ea => simp [Except.map] at hs
        | ok v =>
          simp only [Except.map, Except.ok.injEq, Prod.mk.injEq] at hs
          exact hgoal r1 hs.2.2.2.symm
      case _ =>
        simp only [Option.some.injEq, Except.ok.injEq, Prod.mk.injEq] at h
        exact hgoal r1 h.2.2.2.symm

/-!
## Tag container (src/tag.rs, `Tag`)
-/

/-- A FLAC metadata tag: optional source path, ordered block list, and the
metadata byte length as of the last read/write. -/
structure Tag where
  path : Option String
  blocks : List Block
  length : Nat
deriving DecidableEq, Repr

/-- `Tag::new()`. -/
def Tag.new : Tag := ⟨none, [], 0⟩

/-- `Tag::remove_blocks`: retain blocks of other types. -/
def Tag.remove_blocks (t : Tag) (bt : BlockType) : Tag :=
  { t with blocks := t.blocks.filter fun b => b.block_type != bt }

/-- `Tag::set_streaminfo`: remove every streaminfo block, then insert the
new one at position 0. -/
def Tag.set_streaminfo (t : Tag) (s : StreamInfo) : Tag :=
  let t1 := t.remove_blocks .streamInfo
  { t1 with blocks := .streamInfo s :: t1.blocks }

/-- `Tag::push_block`: a streaminfo block goes through `set_streaminfo`;
everything else is appended. -/
def Tag.push_block (t : Tag) (b : Block) : Tag :=
  match b with
  | .streamInfo s => t.set_streaminfo s
  | _ => { t with blocks := t.blocks ++ [b] }

/-- `Tag::get_streaminfo`: the first streaminfo block. -/
def Tag.get_streaminfo (t : Tag) : Option StreamInfo :=
  t.blocks.findSome? fun b =>
    match b with
    | .streamInfo s => some s
    | _ => none

/-- `Tag::vorbis_comments`: the first vorbis comment block. -/
def Tag.vorbis_comments (t : Tag) : Option VorbisComment :=
  t.blocks.findSome? fun b =>
    match b with
    | .vorbisComment c => some c
    | _ => none

/-- Update the first vorbis comment block of a block list in place;
`none` when the list has no vorbis comment block. -/
def updateFirstVC (f : VorbisComment → VorbisComment) :
    List Block → Option (List Block)
  | [] => none
  | .vorbisComment c :: rest => some (.vorbisComment (f c) :: rest)
  | b :: rest => (updateFirstVC f rest).map (b :: ·)

/-- `Tag::vorbis_comments_mut` composed with a mutation `f` of the returned
reference: mutate the first vorbis comment block; when none exists, push an
empty one and mutate that (the source recurses after pushing). -/
def Tag.modifyVorbis (t : Tag) (f : VorbisComment → VorbisComment) : Tag :=
  match updateFirstVC f t.blocks with
  | some bs => { t with blocks := bs }
  | none =>
    let t1 := t.push_block (.vorbisComment VorbisComment.new)
    match updateFirstVC f t1.blocks with
    | some bs => { t1 with blocks := bs }
    | none => t1

/-- `Tag::get_vorbis`: values under the upper-cased key of the first
vorbis comment block. -/
def Tag.get_vorbis (t : Tag) (key : List Nat) : Option (List (List Nat)) :=
  t.vorbis_comments.bind fun c => c.get (upperAscii key)

/-- `Tag::set_vorbis`. -/
def Tag.set_vorbis (t : Tag) (key : List Nat) (values : List (List Nat)) : Tag :=
  t.modifyVorbis fun c => c.set (upperAscii key) values

/-- `Tag::remove_vorbis`: `vorbis_comments_mut().comments.remove(&key)`
with the upper-cased key. -/
def Tag.remove_vorbis (t : Tag) (key : List Nat) : Tag :=
  t.modifyVorbis fun c => { c with comments := removeKey c.comments (upperAscii key) }

/-- `Tag::remove_vorbis_pair`. -/
def Tag.remove_vorbis_pair (t : Tag) (key value : List Nat) : Tag :=
  t.modifyVorbis fun c => c.remove_pair (upperAscii key) value

/-- `Tag::pictures`, as the list of picture blocks in order. -/
def Tag.pictures (t : Tag) : List Picture :=
  t.blocks.filterMap fun b =>
    match b with
    | .picture p => some p
    | _ => none

/-- `Tag::remove_picture_type`: retain non-pictures and pictures of other
types. -/
def Tag.remove_picture_type (t : Tag) (pt : PictureType) : Tag :=
  { t with
    blocks := t.blocks.filter fun b =>
      match b with
      | .picture p => p.picture_type != pt
      | _ => true }

/-- `Tag::add_picture`: remove pictures of the same type, then push a new
picture with the given MIME type, picture type and data. -/
def Tag.add_picture (t : Tag) (mime : List Nat) (pt : PictureType)
    (data : List Nat) : Tag :=
  let t1 := t.remove_picture_type pt
  t1.push_block (.picture
    { Picture.new with mime_type := mime, picture_type := pt, data := data })

/-- `Tag::read_from`, after the identifier: drain the block iterator,
pushing each block and accumulating its byte length, until the last-block
flag or the first error. -/
def Tag.readBlocks (t : Tag) (r : List Nat) : Option (Except Err Tag) :=
  match h : Block.read_from r with
  | none => none
  | some (.error e) => some (.error e)
  | some (.ok (is_last, len, b, r1)) =>
    let t1 : Tag := { t with length := t.length + len, blocks := t.blocks ++ [b] }
    if is_last then some (.ok t1) else Tag.readBlocks t1 r1
termination_by r.length
decreasing_by exact Block.read_from_rest_length h

/-- `Tag::read_from`: validate the identifier (via the block iterator),
then read blocks until the last one. -/
def Tag.read_from (r : List Nat) : Option (Except Err Tag) :=
  match read_ident r with
  | .error e => some (.error e)
  | .ok r1 => Tag.readBlocks Tag.new r1

/-- `Tag::write_to`: the identifier, then every block with the last-block
flag set only on the final one; the tag's length is recomputed.  `none` is
a serialization panic. -/
def Tag.write_to (t : Tag) : Option (Tag × List Nat) := do
  let n := t.blocks.length
  let pieces ← (List.range n).mapM fun i =>
    Block.write_to (t.blocks.getD i (.padding 0)) (i == n - 1)
  some ({ t with length := (pieces.map List.length).sum }, fLaC ++ pieces.flatten)

/-- The header-skipping loop of `Tag::skip_metadata`, from stream offset
`c`: read a 4-byte header (on a short read, rewind and return the whole
stream), skip its 24-bit length, stop after the last-flagged block.
Seeking past the end is not an error; the final read simply returns the
bytes that exist. -/
def Tag.skip_metadata_loop (f : List Nat) (c : Nat) : List Nat :=
  if h : c + 4 ≤ f.length then
    let header := beVal ((f.drop c).take 4)
    let more := header / 2 ^ 31 % 2 == 0
    let length := header % 2 ^ 24
    if more then Tag.skip_metadata_loop f (c + 4 + length)
    else f.drop (c + 4 + length)
  else f
termination_by f.length - c
decreasing_by omega

/-- `Tag::skip_metadata`: the stream contents with the FLAC metadata
removed; a stream not starting with the identifier is returned whole. -/
def Tag.skip_metadata (f : List Nat) : List Nat :=
  if f.take 4 = fLaC ∧ 4 ≤ f.length then Tag.skip_metadata_loop f 4 else f

/-- One `write_all` on an open file: overwrite at the cursor, extending the
file when the write runs past its end, and advance the cursor. -/
def writeAll (fc : List Nat × Nat) (b : List Nat) : List Nat × Nat :=
  (fc.1.take fc.2 ++ b ++ fc.1.drop (fc.2 + b.length), fc.2 + b.length)

/-- `Tag::write_to_path`.  The file system is explicit: `file` is the
current content of the target path (`none` when no file exists), and the
result carries the written content.  Strip padding blocks, serialize every
remaining block with the last-flag clear, then either (in-place mode, when
the remembered path equals the target and `new_length + 4 ≤ length`) open
the existing file, skip the identifier via `read_ident`, overwrite with the
block bytes and one last-flagged padding block filling the leftover space —
or (rewrite mode) preserve the old file's post-metadata bytes via
`skip_metadata` and write a fresh identifier, blocks, a 1024-byte padding
block, and the preserved bytes.  The pushed padding, new length and path
are recorded in the tag. -/
def Tag.write_to_path (t : Tag) (p : String) (file : Option (List Nat)) :
    Option (Except Err (Tag × List Nat)) := do
  let t0 : Tag := { t with blocks := t.blocks.filter fun b => b.block_type != .padding }
  let blockBytes ← t0.blocks.mapM fun b => Block.write_to b false
  let newLength := (blockBytes.map List.length).sum
  if t0.path = some p ∧ newLength + 4 ≤ t0.length then
    match file with
    | none => some (.error .io)
    | some f =>
      match read_ident f with
      | .error e => some (.error e)
      | .ok rem => do
        let cursor := f.length - rem.length
        let fc1 := blockBytes.foldl writeAll (f, cursor)
        let psize := t0.length - newLength - 4
        let pb ← Block.write_to (.padding psize) true
        let fc2 := writeAll fc1 pb
        let t1 := t0.push_block (.padding psize)
        some (.ok ({ t1 with length := newLength, path := some p }, fc2.1))
  else do
    let data_opt := file.map Tag.skip_metadata
    let pb ← Block.write_to (.padding 1024) true
    let t1 := t0.push_block (.padding 1024)
    some (.ok ({ t1 with length := newLength + pb.length, path := some p },
      fLaC ++ blockBytes.flatten ++ pb ++ data_opt.getD []))

/-- A reader with random access (`impl Read + Seek`): content plus stream
position. -/
structure Reader where
  data : List Nat
  pos : Nat
deriving DecidableEq, Repr

/-- `read_exact(n)`: succeed when `n` bytes remain, advancing by `n`.  On a
short stream the default `read_exact` loops over `read`, consuming
everything up to EOF before reporting the error, so the failing case leaves
the position at the end (files and cursors behave this way). -/
def Reader.read_exact (r : Reader) (n : Nat) : Except Err (List Nat) × Reader :=
  if r.pos + n ≤ r.data.length then
    (.ok ((r.data.drop r.pos).take n), ⟨r.data, r.pos + n⟩)
  else (.error .io, ⟨r.data, r.data.length⟩)

/-- `seek(SeekFrom::Current(-n))`; seeking before offset 0 is an error that
leaves the position unchanged (`is_candidate` discards the result). -/
def Reader.seek_back (r : Reader) (n : Nat) : Reader :=
  if n ≤ r.pos then ⟨r.data, r.pos - n⟩ else r

/-- `Tag::is_candidate`: read 4 bytes (returning `false` immediately on a
read failure, with no seek), seek back 4 bytes, and compare with the
identifier. -/
def Tag.is_candidate (r : Reader) : Bool × Reader :=
  match Reader.read_exact r 4 with
  | (.error _, r1) => (false, r1)
  | (.ok ident, r1) => (decide (ident = fLaC), r1.seek_back 4)

/-!
## Invariant and mutation lemmas for the tag container
-/

/-- Is a block a streaminfo block? -/
def isStreamInfoB : Block → Bool
  | .streamInfo _ => true
  | _ => false

/-- Is a block a vorbis comment block? -/
def isVorbisB : Block → Bool
  | .vorbisComment _ => true
  | _ => false

/-- The streaminfo placement invariant: every block after position 0 is a
non-streaminfo block — equivalently, at most one streaminfo block exists
and, when present, it sits at position 0. -/
def Tag.streaminfo_inv (t : Tag) : Prop :=
  ∀ b ∈ t.blocks.drop 1, isStreamInfoB b = false

theorem streaminfo_inv_count {t : Tag} (h : t.streaminfo_inv) :
    t.blocks.countP isStreamInfoB ≤ 1 := by
  match ht : t.blocks with
  | [] => simp
  | b :: rest =>
    rw [List.countP_cons]
    have hrest : rest.countP isStreamInfoB = 0 := by
      rw [List.countP_eq_zero]
      intro x hx
      have := h x (by rw [ht]; simpa using hx)
      simp [this]
    rw [hrest]
    split <;> simp

theorem streaminfo_inv_index {t : Tag} (h : t.streaminfo_inv)
    (i : Nat) (hi : i < t.blocks.length)
    (hsi : isStreamInfoB (t.blocks.get ⟨i, hi⟩) = true) : i = 0 := by
  cases i with
  | zero => rfl
  | succ j =>
    exfalso
    have hmem : t.blocks.get ⟨j + 1, hi⟩ ∈ t.blocks.drop 1 := by
      have hj : j < (t.blocks.drop 1).length := by
        simp only [List.length_drop]
        omega
      have : (t.blocks.drop 1).get ⟨j, hj⟩ = t.blocks.get ⟨j + 1, hi⟩ := by
        simp [List.get_drop']
      rw [← this]
      exact List.get_mem _ _ _
    have := h _ hmem
    rw [hsi] at this
    simp at this

theorem siFirst_filter {l : List Block} (p : Block → Bool)
    (h : ∀ b ∈ l.drop 1, isStreamInfoB b = false) :
    ∀ b ∈ (l.filter p).drop 1, isStreamInfoB b = false := by
  match l with
  | [] => simp
  | a :: rest =>
    have hrest : ∀ b ∈ rest, isStreamInfoB b = false := fun b hb => h b (by simpa using hb)
    intro b hb
    have hmem : b ∈ rest := by
      rw [List.filter_cons] at hb
      split at hb
      · simp only [List.drop_succ_cons, List.drop_zero] at hb
        exact List.mem_of_mem_filter hb
      · exact List.mem_of_mem_filter (List.mem_of_mem_drop hb)
    exact hrest b hmem

theorem isStreamInfoB_eq_block_type (b : Block) :
    isStreamInfoB b = true ↔ b.block_type = .streamInfo := by
  cases b <;> simp [isStreamInfoB, Block.block_type]

theorem siFirst_append {l : List Block} {b : Block}
    (h : ∀ x ∈ l.drop 1, isStreamInfoB x = false)
    (hb : isStreamInfoB b = false) :
    ∀ x ∈ (l ++ [b]).drop 1, isStreamInfoB x = false := by
  intro x hx
  cases l with
  | nil => simp at hx
  | cons a rest =>
    simp only [List.cons_append, List.drop_succ_cons, List.drop_zero] at hx
    rcases List.mem_append.1 hx with hm | hm
    · exact h x (by simpa using hm)
    · rcases List.mem_singleton.1 hm with rfl
      exact hb

theorem siFirst_set_streaminfo (t : Tag) (s : StreamInfo) :
    (t.set_streaminfo s).streaminfo_inv := by
  intro b hb
  simp only [Tag.set_streaminfo, Tag.remove_blocks, List.drop_succ_cons,
    List.drop_zero] at hb
  have := List.of_mem_filter hb
  simp only [bne_iff_ne, ne_eq] at this
  rcases hsi : isStreamInfoB b with _ | _
  · rfl
  · exact absurd ((isStreamInfoB_eq_block_type b).1 hsi) this

theorem updateFirstVC_none {l : List Block} (f : VorbisComment → VorbisComment)
    (h : ∀ b ∈ l, isVorbisB b = false) : updateFirstVC f l = none := by
  induction l with
  | nil => rfl
  | cons b rest ih =>
    have hrest := fun x hx => h x (List.mem_cons_of_mem _ hx)
    have hb := h b (List.mem_cons_self _ _)
    cases b
    case vorbisComment c => simp [isVorbisB] at hb
    all_goals simp [updateFirstVC, ih hrest]

theorem updateFirstVC_append {l : List Block} (f : VorbisComment → VorbisComment)
    (c : VorbisComment) (h : ∀ b ∈ l, isVorbisB b = false) :
    updateFirstVC f (l ++ [.vorbisComment c])
      = some (l ++ [.vorbisComment (f c)]) := by
  induction l with
  | nil => simp [updateFirstVC]
  | cons b rest ih =>
    have hrest := fun x hx => h x (List.mem_cons_of_mem _ hx)
    have hb := h b (List.mem_cons_self _ _)
    cases b
    case vorbisComment c' => simp [isVorbisB] at hb
    all_goals simp [updateFirstVC, ih hrest]

/-- `vorbis_comments_mut`-based mutation on a tag with no vorbis comment
block: a fresh empty block is pushed (appended) and then mutated. -/
theorem Tag.modifyVorbis_no_vc (t : Tag) (f : VorbisComment → VorbisComment)
    (h : ∀ b ∈ t.blocks, isVorbisB b = false) :
    t.modifyVorbis f
      = { t with blocks := t.blocks ++ [.vorbisComment (f VorbisComment.new)] } := by
  simp only [Tag.modifyVorbis, updateFirstVC_none f h, Tag.push_block]
  simp only [updateFirstVC_append f VorbisComment.new h]

/-!
## File-overwrite lemmas for the in-place write path
-/

theorem writeAll_foldl (bs : List (List Nat)) (f : List Nat) (c : Nat)
    (hc : c ≤ f.length) :
    bs.foldl writeAll (f, c)
      = (f.take c ++ bs.flatten ++ f.drop (c + (bs.map List.length).sum),
         c + (bs.map List.length).sum) := by
  induction bs generalizing f c with
  | nil =>
    simp only [List.foldl_nil, List.flatten_nil, List.map_nil, List.sum_nil,
      Nat.add_zero, List.append_nil]
    rw [List.take_append_drop]
  | cons b tl ih =>
    rw [List.foldl_cons]
    have hw : writeAll (f, c) b
        = (f.take c ++ b ++ f.drop (c + b.length), c + b.length) := rfl
    rw [hw]
    have hlen1 : (f.take c ++ b).length = c + b.length := by
      simp only [List.length_append, List.length_take]
      omega
    have hc1 : c + b.length ≤ (f.take c ++ b ++ f.drop (c + b.length)).length := by
      simp only [List.length_append, List.length_take, List.length_drop]
      omega
    rw [ih _ _ hc1]
    have htake : (f.take c ++ b ++ f.drop (c + b.length)).take (c + b.length)
        = f.take c ++ b :=
      List.take_left' hlen1
    have hdrop : ∀ s : Nat,
        (f.take c ++ b ++ f.drop (c + b.length)).drop (c + b.length + s)
          = f.drop (c + b.length + s) := by
      intro s
      have h1 : (f.take c ++ b ++ f.drop (c + b.length)).drop (c + b.length)
          = f.drop (c + b.length) :=
        List.drop_left' hlen1
      calc (f.take c ++ b ++ f.drop (c + b.length)).drop (c + b.length + s)
          = ((f.take c ++ b ++ f.drop (c + b.length)).drop (c + b.length)).drop s := by
            rw [List.drop_drop]
        _ = (f.drop (c + b.length)).drop s := by rw [h1]
        _ = f.drop (c + b.length + s) := by
            rw [List.drop_drop]
    rw [htake, hdrop, show c + b.length + (tl.map List.length).sum
        = c + (b.length + (tl.map List.length).sum) from by omega]
    simp [List.append_assoc]

theorem writeAt_preserves (f b : List Nat) (c i : Nat) (hc : c ≤ f.length)
    (hi : c + b.length ≤ i) :
    (f.take c ++ b ++ f.drop (c + b.length))[i]? = f[i]? := by
  have hlen1 : (f.take c ++ b).length = c + b.length := by
    simp only [List.length_append, List.length_take]
    omega
  rw [List.getElem?_append_right (by rw [hlen1]; omega), hlen1, List.getElem?_drop]
  congr 1
  omega

theorem Block.write_to_padding (n : Nat) (il : Bool) :
    Block.write_to (.padding n) il
      = some (((if il then 128 else 0) + 1) :: (beBytes 3 n ++ List.replicate n 0)) := rfl

theorem takeN_eq_some {r : List Nat} {n : Nat} {a rr : List Nat}
    (h : takeN r n = some (a, rr)) :
    n ≤ r.length ∧ a = r.take n ∧ rr = r.drop n := by
  unfold takeN at h
  split at h
  · simp only [Option.some.injEq, Prod.mk.injEq] at h
    exact ⟨‹_›, h.1.symm, h.2.symm⟩
  · simp at h

/-- A StreamInfo payload shorter than the 34 bytes of the documented layout
panics at one of the fixed-offset slices. -/
theorem StreamInfo.from_bytes_short (bytes : List Nat) (h : bytes.length < 34) :
    StreamInfo.from_bytes bytes = none := by
  rw [StreamInfo.from_bytes]
  simp only [Option.bind_eq_bind]
  rcases h1 : takeN bytes 2 with _ | ⟨a1, r1⟩
  · rfl
  obtain ⟨hn1, -, hd1⟩ := takeN_eq_some h1
  rw [Option.some_bind]
  rcases h2 : takeN r1 2 with _ | ⟨a2, r2⟩
  · rfl
  obtain ⟨hn2, -, hd2⟩ := takeN_eq_some h2
  rw [Option.some_bind]
  rcases h3 : takeN r2 3 with _ | ⟨a3, r3⟩
  · rfl
  obtain ⟨hn3, -, hd3⟩ := takeN_eq_some h3
  rw [Option.some_bind]
  rcases h4 : takeN r3 3 with _ | ⟨a4, r4⟩
  · rfl
  obtain ⟨hn4, -, hd4⟩ := takeN_eq_some h4
  rw [Option.some_bind]
  rcases h5 : takeN r4 2 with _ | ⟨a5, r5⟩
  · rfl
  obtain ⟨hn5, -, hd5⟩ := takeN_eq_some h5
  rw [Option.some_bind]
  rcases h6 : takeN r5 1 with _ | ⟨a6, r6⟩
  · rfl
  obtain ⟨hn6, -, hd6⟩ := takeN_eq_some h6
  rw [Option.some_bind]
  rcases h7 : takeN r6 5 with _ | ⟨a7, r7⟩
  · rfl
  obtain ⟨hn7, -, hd7⟩ := takeN_eq_some h7
  rw [Option.some_bind]
  have h8 : takeN r7 16 = none := by
    apply takeN_short
    subst hd7 hd6 hd5 hd4 hd3 hd2 hd1
    simp only [List.length_drop]
    omega
  rw [h8]
  rfl

/-- A vorbis comment payload whose first entry has no `=` drives the parser
into the out-of-bounds index on the split result (a panic, `none`), for any
well-formed vendor prefix and entry length. -/
theorem VorbisComment.from_bytes_no_eq (vendor entry rest : List Nat) (n : Nat)
    (hv : utf8Valid vendor = true) (hvl : vendor.length < 2 ^ 32)
    (hn : n + 1 < 2 ^ 32)
    (he : utf8Valid entry = true) (hel : entry.length < 2 ^ 32)
    (hne : 61 ∉ entry) :
    VorbisComment.from_bytes
        (leBytes 4 vendor.length ++ vendor ++ leBytes 4 (n + 1)
          ++ leBytes 4 entry.length ++ entry ++ rest)
      = none := by
  rw [VorbisComment.from_bytes]
  simp only [List.append_assoc]
  rw [takeN_append _ (leBytes_length 4 _)]
  simp only [Option.bind_eq_bind, Option.some_bind]
  rw [leVal_leBytes]
  rw [show vendor.length % 256 ^ 4 = vendor.length from by
    have hpow : (256 : Nat) ^ 4 = 4294967296 := by norm_num
    rw [hpow]
    omega]
  rw [takeN_append _ rfl]
  simp only [Option.some_bind]
  rw [if_pos hv]
  rw [takeN_append _ (leBytes_length 4 _)]
  simp only [Option.some_bind]
  rw [leVal_leBytes]
  rw [show (n + 1) % 256 ^ 4 = n + 1 from by
    have hpow : (256 : Nat) ^ 4 = 4294967296 := by norm_num
    rw [hpow]
    omega]
  rw [VorbisComment.parseComments]
  rw [takeN_append _ (leBytes_length 4 _)]
  simp only [Option.bind_eq_bind, Option.some_bind]
  rw [leVal_leBytes]
  rw [show entry.length % 256 ^ 4 = entry.length from by
    have hpow : (256 : Nat) ^ 4 = 4294967296 := by norm_num
    rw [hpow]
    omega]
  rw [takeN_append _ rfl]
  simp only [Option.some_bind]
  rw [if_pos he, splitEq_of_no_eq hne]

/-- Codes 7-127 map to the unknown catch-all. -/
theorem BlockType.from_u8_unknown (n : Nat) (h : 7 ≤ n) :
    BlockType.from_u8 n = .unknown n := by
  match n, h with
  | n + 7, _ => rfl

/-- Envelope round-trip for unknown blocks: writing an unknown block with a
reserved code and reading the bytes back recovers the block, the last-block
flag, and the `length + 4` byte count, consuming the whole stream. -/
theorem Block.unknown_roundtrip (code : Nat) (data : List Nat) (il : Bool)
    (ubs : List Nat) (h7 : 7 ≤ code) (h127 : code ≤ 127)
    (hlen : data.length < 2 ^ 24)
    (hw : Block.write_to (.unknown code data) il = some ubs) :
    Block.read_from ubs = some (.ok (il, data.length + 4, .unknown code data, [])) := by
  have hubs : ubs
      = ((if il then 128 else 0) + code % 128) :: (beBytes 3 data.length ++ data) := by
    rw [Block.write_to] at hw
    simp only [Option.bind_eq_bind, Option.some_bind, Option.some.injEq] at hw
    exact hw.symm
  subst hubs
  rw [Block.read_from]
  rw [if_neg (by simp only [List.length_append, beBytes_length]; omega)]
  dsimp only
  have htake3 : (beBytes 3 data.length ++ data).take 3 = beBytes 3 data.length :=
    List.take_left' (beBytes_length 3 _)
  have hdrop3 : (beBytes 3 data.length ++ data).drop 3 = data :=
    List.drop_left' (beBytes_length 3 _)
  have hlen3 : beVal (beBytes 3 data.length) = data.length := by
    have hpow : (256 : Nat) ^ 3 = 16777216 := by norm_num
    rw [beVal_beBytes, hpow]
    omega
  have hbyte_mod : ((if il then 128 else 0) + code % 128) % 128 = code := by
    cases il
    · show (0 + code % 128) % 128 = code
      omega
    · show (128 + code % 128) % 128 = code
      omega
  have hbyte_div : (((if il then 128 else 0) + code % 128) / 128 % 2 == 1) = il := by
    cases il
    · show ((0 + code % 128) / 128 % 2 == 1) = false
      rw [show (0 + code % 128) / 128 % 2 = 0 from by omega]
      rfl
    · show ((128 + code % 128) / 128 % 2 == 1) = true
      rw [show (128 + code % 128) / 128 % 2 = 1 from by omega]
      rfl
  rw [htake3, hdrop3, hlen3, hbyte_mod, hbyte_div,
    BlockType.from_u8_unknown code h7]
  rw [List.take_length, List.drop_length]

/-!
## Claim theorems
-/

/-- A StreamInfo with in-range fields (2 channels, 16 bits per sample). -/
def sampleStreamInfo : StreamInfo :=
  { min_block_size := 4096, max_block_size := 4096, min_frame_size := 14,
    max_frame_size := 16, sample_rate := 44100, num_channels := 2,
    bits_per_sample := 16, total_samples := 1000, md5 := List.replicate 16 0 }

/-- `StreamInfo::new()` values with a well-formed 16-byte md5: zero
channels and zero bits per sample. -/
def zeroStreamInfo : StreamInfo := { StreamInfo.new with md5 := List.replicate 16 0 }

def sampleApplication : Application := ⟨[1, 2, 3, 4], [9, 9]⟩

def sampleSeekTable : SeekTable := ⟨[⟨1, 2, 3⟩]⟩

def sampleVorbis : VorbisComment := ⟨[], [([65], [[66]])]⟩

def sampleCueSheet : CueSheet :=
  ⟨List.replicate 128 48, 5, true, [⟨0, 1, List.replicate 12 48, true, false, [⟨0, 1⟩]⟩]⟩

/-- C1 (amended).  `from_bytes(to_bytes(x)) == x` holds for StreamInfo,
Application, Picture, SeekTable and Unknown blocks under the stated
bit-widths and size limits.  For VorbisComment it holds only under the
further conditions that the keys are distinct, upper-case-fixed, free of
`=` and each holds at least one value: a lower-case key is re-read
upper-cased, a key with an empty value list vanishes, and a key containing
`=` is re-split at its first `=`, so mutator-producible comments violating
the conditions do not round-trip.  For CueSheet it holds only when the
catalog number is exactly 128 bytes and every track ISRC exactly 12 bytes
— `to_bytes` NUL-pads shorter strings and `from_bytes` keeps the padding.
The counterexample exhibits each failure. -/
theorem metaflac_c1_roundtrip (s : StreamInfo) (a : Application) (p : Picture)
    (st : SeekTable) (v : VorbisComment) (c : CueSheet) (cbs : List Nat)
    (code : Nat) (data ubs : List Nat) (il : Bool)
    (hs : s.valid) (ha : a.id.length = 4) (hp : p.valid) (hst : st.valid)
    (hv : v.valid) (hc : c.validExact) (hcbs : c.to_bytes = some cbs)
    (h7 : 7 ≤ code) (h127 : code ≤ 127) (hdata : data.length < 2 ^ 24)
    (hubs : Block.write_to (.unknown code data) il = some ubs) :
    StreamInfo.from_bytes s.to_bytes = some s
      ∧ Application.from_bytes a.to_bytes = some a
      ∧ Picture.from_bytes p.to_bytes = some (.ok p)
      ∧ SeekTable.from_bytes st.to_bytes = some st
      ∧ VorbisComment.from_bytes v.to_bytes = some (.ok v)
      ∧ CueSheet.from_bytes cbs = some (.ok c)
      ∧ Block.read_from ubs = some (.ok (il, data.length + 4, .unknown code data, [])) :=
  ⟨StreamInfo.roundtrip_streaminfo s hs.1, Application.roundtrip_application a ha, Picture.roundtrip_picture p hp,
    SeekTable.roundtrip_seektable st hst, VorbisComment.roundtrip_vorbis v hv,
    CueSheet.roundtrip_cuesheet c cbs hc hcbs,
    Block.unknown_roundtrip code data il ubs h7 h127 hdata hubs⟩

theorem utf8Valid_replicate_zero (n : Nat) : utf8Valid (List.replicate n 0) = true := by
  induction n with
  | zero => rfl
  | succ k ih =>
    rw [List.replicate_succ, utf8Valid_cons_ascii 0 _ (by norm_num)]
    exact ih

theorem utf8Valid_replicate_ascii (n c : Nat) (hc : c ≤ 127) :
    utf8Valid (List.replicate n c) = true := by
  induction n with
  | zero => rfl
  | succ k ih =>
    rw [List.replicate_succ, utf8Valid_cons_ascii c _ hc]
    exact ih

theorem sampleCueSheet_validExact_aux (cs : CueSheet)
    (h : cs = ⟨List.replicate 128 48, 5, true,
      [⟨0, 1, List.replicate 12 48, true, false, [⟨0, 1⟩]⟩]⟩) :
    cs.validExact := by
  subst h
  refine ⟨by simp, utf8Valid_replicate_ascii 128 48 (by norm_num), by norm_num,
    by norm_num, ?_⟩
  intro t ht
  simp only [List.mem_singleton] at ht
  subst ht
  refine ⟨by norm_num, by norm_num, by simp, utf8Valid_replicate_ascii 12 48 (by norm_num),
    by norm_num, ?_⟩
  intro i hi
  simp only [List.mem_singleton] at hi
  subst hi
  exact ⟨by norm_num, by norm_num⟩

/-- C1 counterexample: concrete mutator-producible blocks whose round-trip
fails.  Encoding `CueSheet::new()` (empty catalog number) NUL-pads the
catalog to 128 bytes and decoding keeps the padding; a vorbis comment with
a lower-case key (`set("b", ...)`) is re-read with the key upper-cased, a
key holding an empty value list (`set("A", vec![])`) vanishes on re-read,
and a key containing `=` (`set("A=B", ...)`) is re-split at its first `=`
— so `from_bytes(to_bytes(x)) ≠ x` at each of these. -/
theorem metaflac_c1_roundtrip_counterexample :
    (CueSheet.to_bytes CueSheet.new).bind CueSheet.from_bytes
        ≠ some (.ok CueSheet.new)
      ∧ VorbisComment.from_bytes
          (VorbisComment.to_bytes (VorbisComment.new.set [98] [[66]]))
          ≠ some (.ok (VorbisComment.new.set [98] [[66]]))
      ∧ VorbisComment.from_bytes
          (VorbisComment.to_bytes (VorbisComment.new.set [65] []))
          ≠ some (.ok (VorbisComment.new.set [65] []))
      ∧ VorbisComment.from_bytes
          (VorbisComment.to_bytes (VorbisComment.new.set [65, 61, 66] [[67]]))
          ≠ some (.ok (VorbisComment.new.set [65, 61, 66] [[67]])) := by
  refine ⟨?_, by decide, by decide, by decide⟩
  have hto : CueSheet.to_bytes CueSheet.new
      = some (List.replicate 128 0
          ++ (beBytes 8 0 ++ ([128] ++ (List.replicate 258 0 ++ [0])))) := by
    rw [CueSheet.to_bytes]
    rw [if_pos (by norm_num [CueSheet.new])]
    rw [show CueSheet.new.tracks.mapM CueSheetTrack.to_bytes = some [] from rfl]
    rw [Option.map_some']
    simp only [CueSheet.new, List.length_nil, Nat.sub_zero, List.nil_append,
      List.flatten_nil, List.append_nil, Nat.zero_mod, List.append_assoc,
      Option.some.injEq]
    norm_num
  have hfrom : CueSheet.from_bytes (List.replicate 128 0
        ++ (beBytes 8 0 ++ ([128] ++ (List.replicate 258 0 ++ [0]))))
      = some (.ok ⟨List.replicate 128 0, 0, true, []⟩) := by
    rw [CueSheet.from_bytes]
    rw [takeN_append _ (List.length_replicate 128 0)]
    simp only [Option.bind_eq_bind, Option.some_bind]
    rw [if_pos (utf8Valid_replicate_zero 128)]
    rw [takeN_append _ (beBytes_length 8 0)]
    simp only [Option.some_bind]
    rw [takeN_append _ (by simp : ([128] : List Nat).length = 1)]
    simp only [Option.some_bind, List.headD_cons]
    rw [List.drop_left' (List.length_replicate 258 0)]
    rw [takeN_exact (by simp : ([0] : List Nat).length = 1)]
    simp only [Option.some_bind, List.headD_cons]
    rw [show CueSheet.parseTracks 0 [] = some (.ok ([], [])) from rfl]
    rw [show beVal (beBytes 8 0) = 0 from by rw [beVal_beBytes]; simp]
    rfl
  rw [hto]
  simp only [Option.some_bind, hfrom]
  intro h
  simp only [CueSheet.new, Option.some.injEq, Except.ok.injEq, CueSheet.mk.injEq] at h
  have h1 := h.1
  have h2 : (List.replicate 128 0).length = ([] : List Nat).length := by rw [h1]
  rw [List.length_replicate, List.length_nil] at h2
  exact absurd h2 (by norm_num)

set_option maxRecDepth 100000 in
set_option maxHeartbeats 1000000 in
/-- C1 witness: the amended round-trip at concrete in-range blocks. -/
theorem metaflac_c1_roundtrip_witness :
    StreamInfo.from_bytes sampleStreamInfo.to_bytes = some sampleStreamInfo
      ∧ Application.from_bytes sampleApplication.to_bytes = some sampleApplication
      ∧ Picture.from_bytes Picture.new.to_bytes = some (.ok Picture.new)
      ∧ SeekTable.from_bytes sampleSeekTable.to_bytes = some sampleSeekTable
      ∧ VorbisComment.from_bytes sampleVorbis.to_bytes = some (.ok sampleVorbis)
      ∧ CueSheet.from_bytes ((CueSheet.to_bytes sampleCueSheet).getD [])
          = some (.ok sampleCueSheet)
      ∧ Block.read_from ((Block.write_to (.unknown 10 [7]) true).getD [])
          = some (.ok (true, [7].length + 4, .unknown 10 [7], [])) :=
  metaflac_c1_roundtrip sampleStreamInfo sampleApplication Picture.new
    sampleSeekTable sampleVorbis sampleCueSheet
    ((CueSheet.to_bytes sampleCueSheet).getD [])
    10 [7] ((Block.write_to (.unknown 10 [7]) true).getD []) true
    (by decide) (by decide) (by decide) (by decide) (by decide)
    (sampleCueSheet_validExact_aux sampleCueSheet rfl)
    rfl (by norm_num) (by norm_num) (by norm_num) rfl

/-- C3 counterexample: `Picture::from_bytes` does index out of the
payload's bounds on truncated input.  An 8-byte payload with a valid type
code (3) that declares a 5-byte MIME region makes the parser slice
`bytes[8..13]` out of an 8-byte buffer — a panic (`none`), not a returned
error. -/
theorem metaflac_c3_picture_truncated_counterexample :
    Picture.from_bytes [0, 0, 0, 3, 0, 0, 0, 5] = none := by decide

/-- C3 (amended): the per-block parsers may panic (index out of bounds,
modelled `none`) on truncated payloads; in particular every StreamInfo
payload shorter than the 34-byte layout panics, and a VorbisComment payload
whose vendor-length prefix overruns the payload panics. -/
theorem metaflac_c3_truncated_payloads_panic (bytes : List Nat)
    (h : bytes.length < 34) :
    StreamInfo.from_bytes bytes = none
      ∧ VorbisComment.from_bytes [5, 0, 0, 0] = none :=
  ⟨StreamInfo.from_bytes_short bytes h, by decide⟩

/-- C3 witness: the amended statement at a concrete 3-byte payload. -/
theorem metaflac_c3_truncated_payloads_panic_witness :
    StreamInfo.from_bytes [1, 2, 3] = none
      ∧ VorbisComment.from_bytes [5, 0, 0, 0] = none :=
  metaflac_c3_truncated_payloads_panic [1, 2, 3] (by decide)

/-- C4 counterexample: a vorbis comment payload (empty vendor, one comment
`"AB"` with no `=`) makes `VorbisComment::from_bytes` index
`comments_split[1]` out of bounds — a panic (`none`), not a returned
decode error. -/
theorem metaflac_c4_no_separator_counterexample :
    VorbisComment.from_bytes [0, 0, 0, 0, 1, 0, 0, 0, 2, 0, 0, 0, 65, 66]
      = none := by decide

/-- C4 (amended): for every payload whose first comment entry lacks `=`,
`VorbisComment::from_bytes` panics on the out-of-bounds index into the
split result (modelled `none`); no decode error is returned to the
caller. -/
theorem metaflac_c4_no_separator_panics (vendor entry rest : List Nat)
    (n : Nat) (hv : utf8Valid vendor = true) (hvl : vendor.length < 2 ^ 32)
    (hn : n + 1 < 2 ^ 32) (he : utf8Valid entry = true)
    (hel : entry.length < 2 ^ 32) (hne : 61 ∉ entry) :
    VorbisComment.from_bytes
        (leBytes 4 vendor.length ++ vendor ++ leBytes 4 (n + 1)
          ++ leBytes 4 entry.length ++ entry ++ rest)
      = none :=
  VorbisComment.from_bytes_no_eq vendor entry rest n hv hvl hn he hel hne

/-- C4 witness: the amended statement at the concrete entry `"AB"`. -/
theorem metaflac_c4_no_separator_panics_witness :
    VorbisComment.from_bytes
        (leBytes 4 (List.length ([] : List Nat)) ++ []
          ++ leBytes 4 (0 + 1) ++ leBytes 4 ([65, 66] : List Nat).length
          ++ [65, 66] ++ [])
      = none :=
  metaflac_c4_no_separator_panics [] [65, 66] [] 0 (by decide) (by decide)
    (by decide) (by decide) (by decide) (by decide)

/-- C5: encoding a StreamInfo with 2 channels and 16 bits per sample
stores `2 - 1 = 1` in the 3-bit channel sub-field (bits 3-1 of byte 12)
and `16 - 1 = 15` in the 5-bit bits-per-sample sub-field (bit 0 of byte 12
and the top nibble of byte 13), and decoding the bytes recovers 2 channels
and 16 bits per sample (the whole record round-trips). -/
theorem metaflac_c5_streaminfo_bitpacking :
    sampleStreamInfo.to_bytes.getD 12 0 / 2 % 8 = 1
      ∧ sampleStreamInfo.to_bytes.getD 12 0 % 2 * 16
          + sampleStreamInfo.to_bytes.getD 13 0 / 16 = 15
      ∧ StreamInfo.from_bytes sampleStreamInfo.to_bytes = some sampleStreamInfo
      ∧ (StreamInfo.from_bytes sampleStreamInfo.to_bytes).map
          (fun s => (s.num_channels, s.bits_per_sample)) = some (2, 16) := by
  refine ⟨by decide, by decide, by decide, by decide⟩

/-- C8: `StreamInfo::to_bytes` computes `num_channels - 1` and
`bits_per_sample - 1` with wrapping `u8` subtraction, so encoding the
zero values of `StreamInfo::new()` wraps: the 3-bit channel sub-field
stores `7` and the 5-bit bits-per-sample sub-field stores `31`, decoding
returns 8 channels and 32 bits per sample instead of the original zeros
(and with `new()`'s empty md5 the re-parse even panics on the short
payload).  The round-trip law holds under the precondition
`num_channels ∈ [1,8]` and `bits_per_sample ∈ [4,32]`. -/
theorem metaflac_c8_wrapping_subtraction (s : StreamInfo) (h : s.valid) :
    zeroStreamInfo.to_bytes.getD 12 0 / 2 % 8 = 7
      ∧ zeroStreamInfo.to_bytes.getD 12 0 % 2 * 16
          + zeroStreamInfo.to_bytes.getD 13 0 / 16 = 31
      ∧ StreamInfo.from_bytes zeroStreamInfo.to_bytes
          = some { zeroStreamInfo with num_channels := 8, bits_per_sample := 32 }
      ∧ StreamInfo.from_bytes zeroStreamInfo.to_bytes ≠ some zeroStreamInfo
      ∧ StreamInfo.from_bytes StreamInfo.new.to_bytes = none
      ∧ StreamInfo.from_bytes s.to_bytes = some s :=
  ⟨by decide, by decide, by decide, by decide,
    StreamInfo.from_bytes_short _ (by decide),
    StreamInfo.roundtrip_streaminfo s h.1⟩

/-- C8 witness: the wrapping facts plus the round-trip at a concrete
in-range StreamInfo. -/
theorem metaflac_c8_wrapping_subtraction_witness :
    zeroStreamInfo.to_bytes.getD 12 0 / 2 % 8 = 7
      ∧ zeroStreamInfo.to_bytes.getD 12 0 % 2 * 16
          + zeroStreamInfo.to_bytes.getD 13 0 / 16 = 31
      ∧ StreamInfo.from_bytes zeroStreamInfo.to_bytes
          = some { zeroStreamInfo with num_channels := 8, bits_per_sample := 32 }
      ∧ StreamInfo.from_bytes zeroStreamInfo.to_bytes ≠ some zeroStreamInfo
      ∧ StreamInfo.from_bytes StreamInfo.new.to_bytes = none
      ∧ StreamInfo.from_bytes sampleStreamInfo.to_bytes = some sampleStreamInfo :=
  metaflac_c8_wrapping_subtraction sampleStreamInfo (by decide)

theorem Tag.push_block_inv (t : Tag) (b : Block) (h : t.streaminfo_inv) :
    (t.push_block b).streaminfo_inv := by
  cases b
  case streamInfo s => exact siFirst_set_streaminfo t s
  all_goals exact siFirst_append h rfl

/-- C6: the streaminfo placement invariant — at most one streaminfo block,
and when present it sits at position 0 — is preserved by `push_block`,
`set_streaminfo`, `add_picture`, `remove_blocks` and `remove_picture_type`;
`push_block` of a streaminfo block replaces any existing streaminfo and
puts the new one at position 0 instead of appending. -/
theorem metaflac_c6_streaminfo_invariant (t : Tag) (b : Block)
    (s : StreamInfo) (mime : List Nat) (pt : PictureType) (data : List Nat)
    (bt : BlockType) (h : t.streaminfo_inv) :
    (t.push_block b).streaminfo_inv
      ∧ (t.set_streaminfo s).streaminfo_inv
      ∧ (t.add_picture mime pt data).streaminfo_inv
      ∧ (t.remove_blocks bt).streaminfo_inv
      ∧ (t.remove_picture_type pt).streaminfo_inv
      ∧ (t.push_block (.streamInfo s)).blocks
          = .streamInfo s :: t.blocks.filter (fun x => x.block_type != .streamInfo)
      ∧ t.blocks.countP isStreamInfoB ≤ 1
      ∧ ∀ i (hi : i < t.blocks.length),
          isStreamInfoB (t.blocks.get ⟨i, hi⟩) = true → i = 0 :=
  ⟨Tag.push_block_inv t b h,
    siFirst_set_streaminfo t s,
    siFirst_append (siFirst_filter _ h) rfl,
    siFirst_filter _ h,
    siFirst_filter _ h,
    rfl,
    streaminfo_inv_count h,
    streaminfo_inv_index h⟩

/-- C6 witness: the invariant statement at a concrete tag holding a
streaminfo block at position 0 and a padding block. -/
theorem metaflac_c6_streaminfo_invariant_witness :
    ((⟨none, [.streamInfo StreamInfo.new, .padding 9], 0⟩ : Tag).push_block
        (.padding 3)).streaminfo_inv
      ∧ ((⟨none, [.streamInfo StreamInfo.new, .padding 9], 0⟩ : Tag).set_streaminfo
          sampleStreamInfo).streaminfo_inv
      ∧ ((⟨none, [.streamInfo StreamInfo.new, .padding 9], 0⟩ : Tag).add_picture
          [] .coverFront []).streaminfo_inv
      ∧ ((⟨none, [.streamInfo StreamInfo.new, .padding 9], 0⟩ : Tag).remove_blocks
          .padding).streaminfo_inv
      ∧ ((⟨none, [.streamInfo StreamInfo.new, .padding 9], 0⟩ : Tag).remove_picture_type
          .coverFront).streaminfo_inv
      ∧ ((⟨none, [.streamInfo StreamInfo.new, .padding 9], 0⟩ : Tag).push_block
          (.streamInfo sampleStreamInfo)).blocks
          = .streamInfo sampleStreamInfo
            :: (⟨none, [.streamInfo StreamInfo.new, .padding 9], 0⟩ : Tag).blocks.filter
                 (fun x => x.block_type != .streamInfo)
      ∧ (⟨none, [.streamInfo StreamInfo.new, .padding 9], 0⟩ : Tag).blocks.countP
          isStreamInfoB ≤ 1
      ∧ ∀ i (hi : i < (⟨none, [.streamInfo StreamInfo.new, .padding 9], 0⟩
            : Tag).blocks.length),
          isStreamInfoB ((⟨none, [.streamInfo StreamInfo.new, .padding 9], 0⟩
            : Tag).blocks.get ⟨i, hi⟩) = true → i = 0 :=
  metaflac_c6_streaminfo_invariant
    ⟨none, [.streamInfo StreamInfo.new, .padding 9], 0⟩ (.padding 3)
    sampleStreamInfo [] .coverFront [] .padding
    (by intro x hx; simp at hx; subst hx; rfl)

/-- C9: `remove_vorbis`, `remove_vorbis_pair` and `set_vorbis` on a tag
with no vorbis comment block insert a fresh vorbis comment block (via
`vorbis_comments_mut`): a removal on a tag with zero blocks leaves one
(empty) vorbis comment block rather than leaving the list unchanged. -/
theorem metaflac_c9_vorbis_mut_inserts (t : Tag) (k val : List Nat)
    (vs : List (List Nat)) (h : ∀ b ∈ t.blocks, isVorbisB b = false) :
    (t.remove_vorbis k).blocks = t.blocks ++ [.vorbisComment VorbisComment.new]
      ∧ (t.remove_vorbis_pair k val).blocks
          = t.blocks ++ [.vorbisComment VorbisComment.new]
      ∧ (t.set_vorbis k vs).blocks
          = t.blocks ++ [.vorbisComment (VorbisComment.new.set (upperAscii k) vs)]
      ∧ (Tag.new.remove_vorbis k).blocks = [.vorbisComment VorbisComment.new] := by
  refine ⟨?_, ?_, ?_, ?_⟩
  · rw [Tag.remove_vorbis, Tag.modifyVorbis_no_vc t _ h]
    rfl
  · rw [Tag.remove_vorbis_pair, Tag.modifyVorbis_no_vc t _ h]
    rfl
  · rw [Tag.set_vorbis, Tag.modifyVorbis_no_vc t _ h]
  · rw [Tag.remove_vorbis, Tag.modifyVorbis_no_vc Tag.new _ (by
      intro b hb
      simp [Tag.new] at hb)]
    rfl

/-- C9 witness: the mutation effects at a tag holding only a padding
block, and at the empty tag. -/
theorem metaflac_c9_vorbis_mut_inserts_witness :
    ((⟨none, [.padding 3], 0⟩ : Tag).remove_vorbis [65]).blocks
        = (⟨none, [.padding 3], 0⟩ : Tag).blocks ++ [.vorbisComment VorbisComment.new]
      ∧ ((⟨none, [.padding 3], 0⟩ : Tag).remove_vorbis_pair [65] [66]).blocks
          = (⟨none, [.padding 3], 0⟩ : Tag).blocks ++ [.vorbisComment VorbisComment.new]
      ∧ ((⟨none, [.padding 3], 0⟩ : Tag).set_vorbis [65] [[66]]).blocks
          = (⟨none, [.padding 3], 0⟩ : Tag).blocks
            ++ [.vorbisComment (VorbisComment.new.set (upperAscii [65]) [[66]])]
      ∧ (Tag.new.remove_vorbis [65]).blocks = [.vorbisComment VorbisComment.new] :=
  metaflac_c9_vorbis_mut_inserts ⟨none, [.padding 3], 0⟩ [65] [66] [[66]]
    (by intro b hb; simp at hb; subst hb; rfl)

/-- C7: `is_candidate` contradicts its own documented contract ("the reader
position will be reset back to the previous position before returning"): on
a 2-byte stream the 4-byte `read_exact` fails after consuming to EOF and
the error path performs no seek, so the position ends at 2, not 0.  When
the 4 bytes can be read, the position is restored on both outcomes. -/
theorem metaflac_c7_is_candidate_position :
    Tag.is_candidate ⟨[0, 1], 0⟩ = (false, ⟨[0, 1], 2⟩)
      ∧ Tag.is_candidate ⟨[102, 76, 97, 67], 0⟩ = (true, ⟨[102, 76, 97, 67], 0⟩)
      ∧ Tag.is_candidate ⟨[9, 9, 9, 9], 0⟩ = (false, ⟨[9, 9, 9, 9], 0⟩)
      ∧ (∀ r : Reader, r.pos + 4 ≤ r.data.length →
          (Tag.is_candidate r).2.pos = r.pos) := by
  refine ⟨by decide, by decide, by decide, ?_⟩
  intro r hr
  rw [Tag.is_candidate, Reader.read_exact]
  rw [if_pos hr]
  simp only [Reader.seek_back]
  rw [if_pos (by omega : 4 ≤ r.pos + 4)]
  simp

/-- C10: `write_to` on an empty tag emits only the 4-byte `fLaC`
identifier — no block, so no block carries the last-block flag — and
`read_from` on that output fails with an I/O error (the block iterator
hits EOF before any last-flagged block), so the write-then-read round-trip
fails for the empty tag. -/
theorem metaflac_c10_empty_tag_write_read :
    Tag.write_to Tag.new = some (Tag.new, fLaC)
      ∧ Tag.read_from fLaC = some (.error .io) := by
  constructor
  · decide
  · rw [Tag.read_from]
    rw [show read_ident fLaC = .ok [] from by decide]
    show Tag.readBlocks Tag.new [] = some (.error .io)
    rw [Tag.readBlocks.eq_def]
    rfl

/-- C2: in-place mode of `write_to_path`.  When the remembered path equals
the target and the serialized block length plus 4 fits inside the
remembered length, the result file is the old file with the region right
after the identifier overwritten by the serialized blocks followed by one
last-flagged padding block (header byte 129) whose total size, 4-byte
header included, exactly fills the previous metadata region; every byte
beyond that region is unchanged, and the tag records the pushed padding,
the new length and the path. -/
theorem metaflac_c2_write_to_path_in_place
    (t : Tag) (p : String) (f rem : List Nat) (bbs : List (List Nat))
    (newLen k psize : Nat)
    (hpath : t.path = some p)
    (hser : (t.blocks.filter fun b => b.block_type != .padding).mapM
      (fun b => Block.write_to b false) = some bbs)
    (hnew : newLen = (bbs.map List.length).sum)
    (hfit : newLen + 4 ≤ t.length)
    (hid : read_ident f = .ok rem)
    (hk : k = f.length - rem.length)
    (hps : psize = t.length - newLen - 4) :
    t.write_to_path p (some f)
      = some (.ok
          ({ path := some p,
             blocks := (t.blocks.filter fun b => b.block_type != .padding)
               ++ [.padding psize],
             length := newLen },
           f.take k ++ bbs.flatten
             ++ (129 :: (beBytes 3 psize ++ List.replicate psize 0))
             ++ f.drop (k + t.length)))
      ∧ newLen + (psize + 4) = t.length
      ∧ ∀ i, k + t.length ≤ i →
          (f.take k ++ bbs.flatten
             ++ (129 :: (beBytes 3 psize ++ List.replicate psize 0))
             ++ f.drop (k + t.length))[i]? = f[i]? := by
  obtain ⟨k0, hk0, hremk⟩ := read_ident_drop hid
  have hremlen : rem.length = f.length - k0 := by
    rw [hremk, List.length_drop]
  have hkeq : k = k0 := by omega
  subst hkeq hnew hps
  have hcur : f.length - rem.length = k := by omega
  have hpblen : (129 :: (beBytes 3 (t.length - (bbs.map List.length).sum - 4)
      ++ List.replicate (t.length - (bbs.map List.length).sum - 4) 0)).length
      = (t.length - (bbs.map List.length).sum - 4) + 4 := by
    simp only [List.length_cons, List.length_append, beBytes_length,
      List.length_replicate]
    omega
  have hflatlen : bbs.flatten.length = (bbs.map List.length).sum :=
    List.length_flatten bbs
  rw [Tag.write_to_path]
  simp only [Option.bind_eq_bind]
  rw [hser]
  simp only [Option.some_bind]
  rw [if_pos (show t.path = some p
      ∧ (bbs.map List.length).sum + 4 ≤ t.length from ⟨hpath, hfit⟩)]
  rw [hid]
  rw [show Block.write_to
        (Block.padding (t.length - (List.map List.length bbs).sum - 4)) true
      = some (129 :: (beBytes 3 (t.length - (List.map List.length bbs).sum - 4)
        ++ List.replicate (t.length - (List.map List.length bbs).sum - 4) 0))
    from Block.write_to_padding _ true]
  simp only [Option.some_bind]
  rw [hcur]
  rw [writeAll_foldl bbs f k (by omega)]
  rw [writeAll]
  have hlen1 : (f.take k ++ bbs.flatten).length
      = k + (bbs.map List.length).sum := by
    simp only [List.length_append, List.length_take, hflatlen]
    omega
  have htake : ((f.take k ++ bbs.flatten
      ++ f.drop (k + (bbs.map List.length).sum)).take
        (k + (bbs.map List.length).sum))
      = f.take k ++ bbs.flatten :=
    List.take_left' hlen1
  have hdrop : ∀ s : Nat, ((f.take k ++ bbs.flatten
      ++ f.drop (k + (bbs.map List.length).sum)).drop
        (k + (bbs.map List.length).sum + s))
      = f.drop (k + (bbs.map List.length).sum + s) := by
    intro s
    have h1 : ((f.take k ++ bbs.flatten
        ++ f.drop (k + (bbs.map List.length).sum)).drop
          (k + (bbs.map List.length).sum))
        = f.drop (k + (bbs.map List.length).sum) :=
      List.drop_left' hlen1
    calc (f.take k ++ bbs.flatten
        ++ f.drop (k + (bbs.map List.length).sum)).drop
          (k + (bbs.map List.length).sum + s)
        = ((f.take k ++ bbs.flatten
            ++ f.drop (k + (bbs.map List.length).sum)).drop
              (k + (bbs.map List.length).sum)).drop s := by
          rw [List.drop_drop]
      _ = (f.drop (k + (bbs.map List.length).sum)).drop s := by rw [h1]
      _ = f.drop (k + (bbs.map List.length).sum + s) := by rw [List.drop_drop]
  refine ⟨?_, by omega, ?_⟩
  · dsimp only
    rw [htake, hpblen, hdrop]
    rw [show k + (bbs.map List.length).sum
        + ((t.length - (bbs.map List.length).sum - 4) + 4)
        = k + t.length from by omega]
    simp only [Tag.push_block]
  · intro i hi
    have hb : (bbs.flatten
        ++ (129 :: (beBytes 3 (t.length - (bbs.map List.length).sum - 4)
          ++ List.replicate (t.length - (bbs.map List.length).sum - 4) 0))).length
        = t.length := by
      simp only [List.length_append, hflatlen, List.length_cons,
        beBytes_length, List.length_replicate]
      omega
    have hpre := writeAt_preserves f
      (bbs.flatten
        ++ (129 :: (beBytes 3 (t.length - (bbs.map List.length).sum - 4)
          ++ List.replicate (t.length - (bbs.map List.length).sum - 4) 0)))
      k i (by omega) (by rw [hb]; omega)
    rw [hb] at hpre
    rw [← hpre]
    simp only [List.append_assoc]

/-- C2 witness: a tag remembering path `a` with one padding block and
remembered length 8 is written in place over a file of identifier, 8
metadata bytes and 2 audio bytes: the metadata region becomes a single
4-byte-header padding block of size 4 and the audio bytes survive. -/
theorem metaflac_c2_write_to_path_in_place_witness :
    (⟨some "a", [.padding 2], 8⟩ : Tag).write_to_path "a"
        (some ([102, 76, 97, 67] ++ [7, 7, 7, 7, 7, 7, 7, 7] ++ [9, 9]))
      = some (.ok
          ({ path := some "a", blocks := [Block.padding 4], length := 0 },
           [102, 76, 97, 67] ++ [129, 0, 0, 4, 0, 0, 0, 0] ++ [9, 9]))
      ∧ ∀ i, 12 ≤ i →
          ([102, 76, 97, 67] ++ [129, 0, 0, 4, 0, 0, 0, 0] ++ [9, 9])[i]?
            = ([102, 76, 97, 67] ++ [7, 7, 7, 7, 7, 7, 7, 7] ++ [9, 9])[i]? := by
  have h := metaflac_c2_write_to_path_in_place
    ⟨some "a", [.padding 2], 8⟩ "a"
    ([102, 76, 97, 67] ++ [7, 7, 7, 7, 7, 7, 7, 7] ++ [9, 9])
    [7, 7, 7, 7, 7, 7, 7, 7, 9, 9] [] 0 4 4
    rfl rfl rfl (by decide) (by decide) (by decide) (by decide)
  refine ⟨?_, ?_⟩
  · have h1 := h.1
    simpa using h1
  · intro i hi
    have h3 := h.2.2 i (by omega)
    simpa using h3
